import Mathlib

/-!
Adler-32 with NEON lanes (`contrib/arm/neon_adler32.h`)

A shallow embedding of `NEON_accum32`, `NEON_handle_tail` and `NEON_adler32`.

* `unsigned char` is `Fin 256`; `uint16_t` and `uint32_t` values are natural
  numbers kept below `2^16` and `2^32` by an explicit `%` after every
  operation that can carry.
* A NEON register is a structure with one field per lane (`l0` is lane 0); the
  intrinsics of `arm_neon.h` are modelled after their architectural definition.
* A buffer pointer is the list of bytes that starts at the pointer, `buf + k`
  is `List.drop k`, and a null pointer is `none`.
* `z_size_t` and `unsigned long` values are natural numbers (no width is
  assumed for them); `unsigned int` counters are reduced modulo `2^32`.
* Loops whose counter is an `unsigned int` compared against a `z_size_t`
  bound take a fuel argument that bounds the number of iterations of every
  such loop; `none` means the fuel ran out before the loop was left.
* A read past the end of the list gives 0 in these functions. The functions whose
  name ends in `_chk` are the same code with every load from the buffer checked
  against its length: there a load outside the buffer ends the run.
-/

namespace NeonAdler32

/-! ## Constants and machine words -/

/-- An `unsigned char`. -/
abbrev Byte := Fin 256

/-- `M_NMAX`: the threshold where doing accumulation may overflow. -/
def M_NMAX : Nat := 5552

/-- `M_BASE`: the largest prime smaller than 65536. -/
def M_BASE : Nat := 65521

/-- Number of values of a `uint16_t`. -/
def W16 : Nat := 65536

/-- Number of values of a `uint32_t` (and of an `unsigned int`). -/
def W32 : Nat := 4294967296

/-- The weight table `taps[32]` of `NEON_accum32`. -/
def taps : List Byte :=
  [32, 31, 30, 29, 28, 27, 26, 25,
   24, 23, 22, 21, 20, 19, 18, 17,
   16, 15, 14, 13, 12, 11, 10, 9,
   8, 7, 6, 5, 4, 3, 2, 1]

/-! ## NEON registers -/

/-- A `uint8x8_t`. -/
structure U8x8 where
  l0 : Nat
  l1 : Nat
  l2 : Nat
  l3 : Nat
  l4 : Nat
  l5 : Nat
  l6 : Nat
  l7 : Nat
deriving DecidableEq

/-- A `uint8x16_t`. -/
structure U8x16 where
  l0 : Nat
  l1 : Nat
  l2 : Nat
  l3 : Nat
  l4 : Nat
  l5 : Nat
  l6 : Nat
  l7 : Nat
  l8 : Nat
  l9 : Nat
  l10 : Nat
  l11 : Nat
  l12 : Nat
  l13 : Nat
  l14 : Nat
  l15 : Nat
deriving DecidableEq

/-- A `uint16x8_t`. -/
structure U16x8 where
  l0 : Nat
  l1 : Nat
  l2 : Nat
  l3 : Nat
  l4 : Nat
  l5 : Nat
  l6 : Nat
  l7 : Nat
deriving DecidableEq

/-- A `uint32x4_t`. -/
structure U32x4 where
  l0 : Nat
  l1 : Nat
  l2 : Nat
  l3 : Nat
deriving DecidableEq

/-- A `uint32x2_t`. -/
structure U32x2 where
  l0 : Nat
  l1 : Nat
deriving DecidableEq

/-! ## Memory reads and NEON intrinsics -/

/-- The byte `p[k]`, as a number. A read past the end of the list gives 0. -/
def ld (p : List Byte) (k : Nat) : Nat :=
  match p.get? k with
  | some b => b.val
  | none => 0

/-- Intrinsic `vld1q_u8(p)`: load the 16 bytes `p[0] .. p[15]`. -/
def vld1q_u8 (p : List Byte) : U8x16 :=
  { l0 := ld p 0, l1 := ld p 1, l2 := ld p 2, l3 := ld p 3,
    l4 := ld p 4, l5 := ld p 5, l6 := ld p 6, l7 := ld p 7,
    l8 := ld p 8, l9 := ld p 9, l10 := ld p 10, l11 := ld p 11,
    l12 := ld p 12, l13 := ld p 13, l14 := ld p 14, l15 := ld p 15 }

/-- Intrinsic `vget_low_u8`: lanes 0 to 7. -/
def vget_low_u8 (v : U8x16) : U8x8 :=
  { l0 := v.l0, l1 := v.l1, l2 := v.l2, l3 := v.l3,
    l4 := v.l4, l5 := v.l5, l6 := v.l6, l7 := v.l7 }

/-- Intrinsic `vget_high_u8`: lanes 8 to 15. -/
def vget_high_u8 (v : U8x16) : U8x8 :=
  { l0 := v.l8, l1 := v.l9, l2 := v.l10, l3 := v.l11,
    l4 := v.l12, l5 := v.l13, l6 := v.l14, l7 := v.l15 }

/-- Intrinsic `vdupq_n_u32(x)`: every lane is `x`. -/
def vdupq_n_u32 (x : Nat) : U32x4 :=
  { l0 := x % W32, l1 := x % W32, l2 := x % W32, l3 := x % W32 }

/-- Intrinsic `vsetq_lane_u32(x, v, 0)`: lane 0 becomes `x`. -/
def vsetq_lane_u32_0 (x : Nat) (v : U32x4) : U32x4 :=
  { v with l0 := x % W32 }

/-- Intrinsic `vshlq_n_u32(v, k)`: every lane shifted left by `k`, in 32 bits. -/
def vshlq_n_u32 (v : U32x4) (k : Nat) : U32x4 :=
  { l0 := (v.l0 <<< k) % W32, l1 := (v.l1 <<< k) % W32,
    l2 := (v.l2 <<< k) % W32, l3 := (v.l3 <<< k) % W32 }

/-- Intrinsic `vaddq_u32`: lane-wise sum, in 32 bits. -/
def vaddq_u32 (a b : U32x4) : U32x4 :=
  { l0 := (a.l0 + b.l0) % W32, l1 := (a.l1 + b.l1) % W32,
    l2 := (a.l2 + b.l2) % W32, l3 := (a.l3 + b.l3) % W32 }

/-- Intrinsic `vpaddlq_u8`: sums of adjacent pairs of bytes, widened to 16 bits. -/
def vpaddlq_u8 (d : U8x16) : U16x8 :=
  { l0 := (d.l0 + d.l1) % W16, l1 := (d.l2 + d.l3) % W16,
    l2 := (d.l4 + d.l5) % W16, l3 := (d.l6 + d.l7) % W16,
    l4 := (d.l8 + d.l9) % W16, l5 := (d.l10 + d.l11) % W16,
    l6 := (d.l12 + d.l13) % W16, l7 := (d.l14 + d.l15) % W16 }

/-- Intrinsic `vpadalq_u8`: sums of adjacent pairs of bytes, added to 16-bit lanes. -/
def vpadalq_u8 (a : U16x8) (d : U8x16) : U16x8 :=
  { l0 := (a.l0 + d.l0 + d.l1) % W16, l1 := (a.l1 + d.l2 + d.l3) % W16,
    l2 := (a.l2 + d.l4 + d.l5) % W16, l3 := (a.l3 + d.l6 + d.l7) % W16,
    l4 := (a.l4 + d.l8 + d.l9) % W16, l5 := (a.l5 + d.l10 + d.l11) % W16,
    l6 := (a.l6 + d.l12 + d.l13) % W16, l7 := (a.l7 + d.l14 + d.l15) % W16 }

/-- Intrinsic `vmull_u8`: lane-wise product of bytes, widened to 16 bits. -/
def vmull_u8 (a b : U8x8) : U16x8 :=
  { l0 := (a.l0 * b.l0) % W16, l1 := (a.l1 * b.l1) % W16,
    l2 := (a.l2 * b.l2) % W16, l3 := (a.l3 * b.l3) % W16,
    l4 := (a.l4 * b.l4) % W16, l5 := (a.l5 * b.l5) % W16,
    l6 := (a.l6 * b.l6) % W16, l7 := (a.l7 * b.l7) % W16 }

/-- Intrinsic `vmlal_u8`: lane-wise product of bytes, added to 16-bit lanes. -/
def vmlal_u8 (c : U16x8) (a b : U8x8) : U16x8 :=
  { l0 := (c.l0 + a.l0 * b.l0) % W16, l1 := (c.l1 + a.l1 * b.l1) % W16,
    l2 := (c.l2 + a.l2 * b.l2) % W16, l3 := (c.l3 + a.l3 * b.l3) % W16,
    l4 := (c.l4 + a.l4 * b.l4) % W16, l5 := (c.l5 + a.l5 * b.l5) % W16,
    l6 := (c.l6 + a.l6 * b.l6) % W16, l7 := (c.l7 + a.l7 * b.l7) % W16 }

/-- Intrinsic `vpadalq_u16`: sums of adjacent pairs of 16-bit lanes, added to
32-bit lanes. -/
def vpadalq_u16 (a : U32x4) (v : U16x8) : U32x4 :=
  { l0 := (a.l0 + v.l0 + v.l1) % W32, l1 := (a.l1 + v.l2 + v.l3) % W32,
    l2 := (a.l2 + v.l4 + v.l5) % W32, l3 := (a.l3 + v.l6 + v.l7) % W32 }

/-- Intrinsic `vget_low_u32`: lanes 0 and 1. -/
def vget_low_u32 (v : U32x4) : U32x2 := { l0 := v.l0, l1 := v.l1 }

/-- Intrinsic `vget_high_u32`: lanes 2 and 3. -/
def vget_high_u32 (v : U32x4) : U32x2 := { l0 := v.l2, l1 := v.l3 }

/-- Intrinsic `vpadd_u32`: the pair sum of `a`, then the pair sum of `b`. -/
def vpadd_u32 (a b : U32x2) : U32x2 :=
  { l0 := (a.l0 + a.l1) % W32, l1 := (b.l0 + b.l1) % W32 }

/-! ## `NEON_accum32` -/

/-- The body of `while (len >= 2)` in `NEON_accum32`: one group of 32 bytes. -/
def accum32_group32 (buf : List Byte) (adacc s2acc : U32x4) : U32x4 × U32x4 :=
  let t0 := vld1q_u8 taps
  let t1 := vld1q_u8 (taps.drop 16)
  let n_first_low := vget_low_u8 t0
  let n_first_high := vget_high_u8 t0
  let n_second_low := vget_low_u8 t1
  let n_second_high := vget_high_u8 t1
  let d0 := vld1q_u8 buf
  let d1 := vld1q_u8 (buf.drop 16)
  let s2acc := vaddq_u32 s2acc (vshlq_n_u32 adacc 5)
  let adler := vpaddlq_u8 d0
  let adler := vpadalq_u8 adler d1
  let sum2 := vmull_u8 n_first_low (vget_low_u8 d0)
  let sum2 := vmlal_u8 sum2 n_first_high (vget_high_u8 d0)
  let sum2 := vmlal_u8 sum2 n_second_low (vget_low_u8 d1)
  let sum2 := vmlal_u8 sum2 n_second_high (vget_high_u8 d1)
  let adacc := vpadalq_u16 adacc adler
  let s2acc := vpadalq_u16 s2acc sum2
  (adacc, s2acc)

/-- The body of `while (len > 0)` in `NEON_accum32`: one group of 16 bytes. -/
def accum32_group16 (buf : List Byte) (adacc s2acc : U32x4) : U32x4 × U32x4 :=
  let t1 := vld1q_u8 (taps.drop 16)
  let n_second_low := vget_low_u8 t1
  let n_second_high := vget_high_u8 t1
  let d0 := vld1q_u8 buf
  let s2acc := vaddq_u32 s2acc (vshlq_n_u32 adacc 4)
  let adler := vpaddlq_u8 d0
  let sum2 := vmull_u8 n_second_low (vget_low_u8 d0)
  let sum2 := vmlal_u8 sum2 n_second_high (vget_high_u8 d0)
  let adacc := vpadalq_u16 adacc adler
  let s2acc := vpadalq_u16 s2acc sum2
  (adacc, s2acc)

/-- The second loop of `NEON_accum32`, `while (len > 0)`: each pass takes one group of
16 bytes, advances `buf` by 16 and decrements `len`. -/
def accum32_loop16 : Nat → List Byte → U32x4 → U32x4 → U32x4 × U32x4
  | 0, _, adacc, s2acc => (adacc, s2acc)
  | len + 1, buf, adacc, s2acc =>
    let r := accum32_group16 buf adacc s2acc
    accum32_loop16 len (buf.drop 16) r.1 r.2

/-- The first loop of `NEON_accum32`, `while (len >= 2)`: each pass takes one group of
32 bytes, advances `buf` by 32 and lowers `len` by 2. When it is left, the second loop
runs on what remains of `len` and `buf`. -/
def accum32_loop32 : Nat → List Byte → U32x4 → U32x4 → U32x4 × U32x4
  | len + 2, buf, adacc, s2acc =>
    let r := accum32_group32 buf adacc s2acc
    accum32_loop32 len (buf.drop 32) r.1 r.2
  | 1, buf, adacc, s2acc => accum32_loop16 1 buf adacc s2acc
  | 0, buf, adacc, s2acc => accum32_loop16 0 buf adacc s2acc

/-- `NEON_accum32(s, buf, len)`: the pair `s` after `len` groups of 16 bytes. -/
def NEON_accum32 (s : Nat × Nat) (buf : List Byte) (len : Nat) : Nat × Nat :=
  let adacc := vdupq_n_u32 0
  let s2acc := vdupq_n_u32 0
  let adacc := vsetq_lane_u32_0 s.1 adacc
  let s2acc := vsetq_lane_u32_0 s.2 s2acc
  let r := accum32_loop32 len buf adacc s2acc
  let adacc2 := vpadd_u32 (vget_low_u32 r.1) (vget_high_u32 r.1)
  let s2acc2 := vpadd_u32 (vget_low_u32 r.2) (vget_high_u32 r.2)
  let as := vpadd_u32 adacc2 s2acc2
  (as.l0, as.l1)

/-! ## `NEON_handle_tail` -/

/-- The loop `for (unsigned int i = 0; i < len; ++i)` of `NEON_handle_tail`,
entered with counter `i`. The counter is an `unsigned int`, `len` a `z_size_t`. -/
def handle_tail_loop (buf : List Byte) (len : Nat) :
    Nat → Nat → Nat × Nat → Option (Nat × Nat)
  | 0, _, _ => none
  | fuel + 1, i, pair =>
    if i < len then
      let p0 := (pair.1 + ld buf i) % W32
      let p1 := (pair.2 + p0) % W32
      handle_tail_loop buf len fuel ((i + 1) % W32) (p0, p1)
    else some pair

/-- `NEON_handle_tail(pair, buf, len)`: the pair after the loop
`pair[0] += buf[i]; pair[1] += pair[0];`. -/
def NEON_handle_tail (fuel : Nat) (pair : Nat × Nat) (buf : List Byte) (len : Nat) :
    Option (Nat × Nat) :=
  handle_tail_loop buf len fuel 0 pair

/-! ## `NEON_adler32` -/

/-- The variables of `NEON_adler32` that its chunk loop changes. -/
structure LoopState where
  i : Nat
  n : Nat
  done : Nat
  pair : Nat × Nat
deriving DecidableEq

/-- What one pass through the `for` loop of `NEON_adler32` does: `next` when the
body ran to its end and `i += n` was executed, `stop` when the loop was left
(by its condition `i < len` or by `break`). -/
inductive Flow where
  | next (st : LoopState)
  | stop (st : LoopState)
deriving DecidableEq

/-- The value of `n` after `if ((len - i) < n) n = len - i;`. -/
def chunk_size (len : Nat) (st : LoopState) : Nat :=
  if len - st.i < st.n then (len - st.i) % W32 else st.n

/-- One pass through the loop `for (unsigned int i = 0; i < len; i += n)` of
`NEON_adler32`: the test `i < len`, the body, and the step `i += n`. -/
def adler32_body (buf : List Byte) (len : Nat) (st : LoopState) : Flow :=
  if st.i < len then
    let n := chunk_size len st
    if n < 16 then
      Flow.stop { st with n := n }
    else
      let pair := NEON_accum32 st.pair (buf.drop st.i) (n / 16)
      let pair := (pair.1 % M_BASE, pair.2 % M_BASE)
      let done := (st.done + (n / 16) * 16) % W32
      Flow.next { i := (st.i + n) % W32, n := n, done := done, pair := pair }
  else
    Flow.stop st

/-- The chunk loop of `NEON_adler32`: the state in which the loop is left, or
`none` when it is not left within `fuel` passes. -/
def adler32_loop (buf : List Byte) (len : Nat) : Nat → LoopState → Option LoopState
  | 0, _ => none
  | fuel + 1, st =>
    match adler32_body buf len st with
    | Flow.next st1 => adler32_loop buf len fuel st1
    | Flow.stop st1 => some st1

/-- Split Adler-32 into component sums: `sum2 = (adler >> 16) & 0xffff;
adler &= 0xffff; pair[0] = adler; pair[1] = sum2;`. -/
def decode (adler : Nat) : Nat × Nat :=
  let sum2 := (adler >>> 16) &&& 0xffff
  let adler := adler &&& 0xffff
  (adler % W32, sum2 % W32)

/-- The returned value `(pair[1] << 16) | pair[0]`, computed on `uint32_t`. -/
def encode (pair : Nat × Nat) : Nat :=
  ((pair.2 <<< 16) % W32) ||| pair.1

/-- The state of the local variables when the chunk loop is entered. -/
def loop_init (adler : Nat) : LoopState :=
  { i := 0, n := M_NMAX, done := 0, pair := decode adler }

/-- `NEON_adler32(adler, buf, len)`. A null `buf` is `none`. -/
def NEON_adler32 (fuel : Nat) (adler : Nat) (buf : Option (List Byte)) (len : Nat) :
    Option Nat :=
  match buf with
  | none => some 1
  | some buf =>
    match adler32_loop buf len fuel (loop_init adler) with
    | none => none
    | some st =>
      if st.done < len then
        match NEON_handle_tail fuel st.pair (buf.drop st.done) (len - st.done) with
        | none => none
        | some pair => some (encode (pair.1 % M_BASE, pair.2 % M_BASE))
      else
        some (encode st.pair)

/-! ## The sequential definition -/

/-- The reference step of the sequential definition:
`A = (A + byte) % 65521; B = (B + A) % 65521`. -/
def reference_step (p : Nat × Nat) (byte : Byte) : Nat × Nat :=
  let A := (p.1 + byte.val) % 65521
  let B := (p.2 + A) % 65521
  (A, B)

/-- The sequential reference definition of the checksum: start with
`A = s & 0xFFFF` and `B = (s >> 16) & 0xFFFF`, for each byte in order set
`A = (A + byte) % 65521` then `B = (B + A) % 65521`, return `(B << 16) | A`. -/
def adler32_reference (s : Nat) (b : List Byte) : Nat :=
  let A0 := s &&& 0xFFFF
  let B0 := (s >>> 16) &&& 0xFFFF
  let p := b.foldl reference_step (A0, B0)
  (p.2 <<< 16) ||| p.1

/-! ## Definitions used to state and prove the properties -/

/-- The body of the loop of `NEON_handle_tail` over the natural numbers:
`pair[0] += buf[i]; pair[1] += pair[0];` without the 32-bit wrap. -/
def tail_step (p : Nat × Nat) (b : Byte) : Nat × Nat :=
  (p.1 + b.val, p.2 + (p.1 + b.val))

/-- The exact (unbounded) running sums after `A += byte; B += A` for each byte of
`bs` in order, started from `p`. -/
def seq_sums (p : Nat × Nat) (bs : List Byte) : Nat × Nat :=
  bs.foldl tail_step p

/-- The lane accumulators `adacc`, `s2acc` of `NEON_accum32` hold, summed over
their lanes in 32 bits, the running sums `p` modulo `2^32`. -/
def Tracks (adacc s2acc : U32x4) (p : Nat × Nat) : Prop :=
  (adacc.l0 + adacc.l1 + adacc.l2 + adacc.l3) % W32 = p.1 % W32 ∧
  (s2acc.l0 + s2acc.l1 + s2acc.l2 + s2acc.l3) % W32 = p.2 % W32

/-- The sum of the four lanes of a `uint32x4_t`, in 32 bits (what the final
`vpadd_u32` cascade of `NEON_accum32` computes). -/
def hsum (v : U32x4) : Nat := (v.l0 + v.l1 + v.l2 + v.l3) % W32

/-- The exact sum of the eight lanes of a `uint16x8_t`. -/
def lanes16 (v : U16x8) : Nat := v.l0 + v.l1 + v.l2 + v.l3 + v.l4 + v.l5 + v.l6 + v.l7

/-- Every lane of a `uint8x16_t` is a byte value. -/
def IsBytes (d : U8x16) : Prop :=
  d.l0 < 256 ∧ d.l1 < 256 ∧ d.l2 < 256 ∧ d.l3 < 256 ∧ d.l4 < 256 ∧ d.l5 < 256 ∧
  d.l6 < 256 ∧ d.l7 < 256 ∧ d.l8 < 256 ∧ d.l9 < 256 ∧ d.l10 < 256 ∧ d.l11 < 256 ∧
  d.l12 < 256 ∧ d.l13 < 256 ∧ d.l14 < 256 ∧ d.l15 < 256

/-- The sum of the 16 bytes of a register. -/
def bsum16 (d : U8x16) : Nat :=
  d.l0 + d.l1 + d.l2 + d.l3 + d.l4 + d.l5 + d.l6 + d.l7 + d.l8 + d.l9 + d.l10 + d.l11 + d.l12 +
  d.l13 + d.l14 + d.l15

/-- The sum of the 16 bytes of a register, the byte in lane `k` weighted `16 - k`. -/
def wsum16 (d : U8x16) : Nat :=
  16 * d.l0 + 15 * d.l1 + 14 * d.l2 + 13 * d.l3 + 12 * d.l4 + 11 * d.l5 + 10 * d.l6 + 9 * d.l7 +
  8 * d.l8 + 7 * d.l9 + 6 * d.l10 + 5 * d.l11 + 4 * d.l12 + 3 * d.l13 + 2 * d.l14 + d.l15

/-- A pair of natural numbers stored into `uint32_t pair[2]`. -/
def wrap32 (p : Nat × Nat) : Nat × Nat := (p.1 % W32, p.2 % W32)

/-- The reduction step `pair[0] %= M_BASE; pair[1] %= M_BASE;`. -/
def reduce (p : Nat × Nat) : Nat × Nat := (p.1 % M_BASE, p.2 % M_BASE)

/-- The pair of sums of the sequential definition after the bytes `bs`,
started from `p` (the fold inside `adler32_reference`). -/
def ref_fold (p : Nat × Nat) (bs : List Byte) : Nat × Nat := bs.foldl reference_step p

/-- The triangular number `1 + 2 + ... + n`. -/
def tri : Nat → Nat
  | 0 => 0
  | n + 1 => tri n + (n + 1)

/-- The loop state expected at the start of pass `k` (counted from 0) of the chunk
loop when every earlier pass took a full chunk of 5552 bytes. -/
def chunk_start (p0 : Nat × Nat) (buf : List Byte) (k : Nat) : LoopState :=
  { i := 5552 * k, n := 5552, done := 5552 * k, pair := ref_fold p0 (buf.take (5552 * k)) }

/-- The 9 ASCII bytes of the word Wikipedia. -/
def wikipedia : List Byte := [0x57, 0x69, 0x6B, 0x69, 0x70, 0x65, 0x64, 0x69, 0x61]

/-- A buffer of 40 bytes: two groups of 16 bytes and a tail of 8. -/
def sample40 : List Byte :=
  [1, 2, 3, 4, 5, 6, 7, 8, 9, 10, 11, 12, 13, 14, 15, 16, 17, 18, 19, 20,
   255, 254, 253, 252, 251, 250, 249, 248, 247, 246, 245, 244, 243, 242, 241, 240, 0, 128, 64, 32]

/-- A buffer of 48 bytes: three groups of 16 bytes. -/
def sample48 : List Byte := sample40 ++ [7, 8, 9, 10, 11, 12, 13, 14]

/-- The state in which pass number `k` (counted from 0) of the chunk loop is entered,
started in `st0`; `none` when the loop was left before that pass. -/
def loop_state (buf : List Byte) (len : Nat) (st0 : LoopState) : Nat → Option LoopState
  | 0 => some st0
  | k + 1 =>
    match loop_state buf len st0 k with
    | none => none
    | some st =>
      match adler32_body buf len st with
      | Flow.next st1 => some st1
      | Flow.stop _ => none

/-- The exact running sums started from `p` stay at most `2^32 - 1` after every byte
of `bs`. -/
def NoWrap (p : Nat × Nat) (bs : List Byte) : Prop :=
  ∀ m, m ≤ bs.length →
    (seq_sums p (bs.take m)).1 ≤ 4294967295 ∧ (seq_sums p (bs.take m)).2 ≤ 4294967295

/-- A buffer of `2^32` zero bytes. -/
def zeros4GiB : List Byte := List.replicate 4294967296 0

/-- The lane accumulators after `m` passes of the first loop of `NEON_accum32` (one group
of 32 bytes each, `buf` advanced by 32 after each). -/
def iter_group32 : Nat → List Byte → U32x4 → U32x4 → U32x4 × U32x4
  | 0, _, adacc, s2acc => (adacc, s2acc)
  | m + 1, buf, adacc, s2acc =>
    let r := accum32_group32 buf adacc s2acc
    iter_group32 m (buf.drop 32) r.1 r.2

/-- The bytes handed to `NEON_accum32` by the passes of the chunk loop, in the order of
the passes: a pass that runs to its end calls `NEON_accum32(pair, buf + i, n / 16)`, which
takes the `16 * (n / 16)` bytes at offset `i`. -/
def loop_consumed (buf : List Byte) (len : Nat) : Nat → LoopState → List Byte
  | 0, _ => []
  | fuel + 1, st =>
    match adler32_body buf len st with
    | Flow.next st1 =>
      (buf.drop st.i).take (16 * (chunk_size len st / 16)) ++ loop_consumed buf len fuel st1
    | Flow.stop _ => []

/-- The offsets of the 16 bytes `vld1q_u8(buf + off)` loads, relative to `buf`. -/
def vld1q_u8_reads (off : Nat) : List Nat :=
  [off, off + 1, off + 2, off + 3, off + 4, off + 5, off + 6, off + 7, off + 8, off + 9,
   off + 10, off + 11, off + 12, off + 13, off + 14, off + 15]

/-- The offsets the second loop of `NEON_accum32` loads, when it starts `off` bytes after
the pointer the function was given. -/
def accum32_loop16_reads : Nat → Nat → List Nat
  | 0, _ => []
  | len + 1, off => vld1q_u8_reads off ++ accum32_loop16_reads len (off + 16)

/-- The offsets the loops of `NEON_accum32` load, when they start `off` bytes after the
pointer the function was given: `d0` at `buf`, `d1` at `buf + 16`, then `buf += 32`. -/
def accum32_loop32_reads : Nat → Nat → List Nat
  | len + 2, off =>
    vld1q_u8_reads off ++ vld1q_u8_reads (off + 16) ++ accum32_loop32_reads len (off + 32)
  | 1, off => accum32_loop16_reads 1 off
  | 0, off => accum32_loop16_reads 0 off

/-- The offsets of the bytes `NEON_accum32(s, buf, len)` loads, relative to `buf`. -/
def NEON_accum32_reads (len : Nat) : List Nat := accum32_loop32_reads len 0

/-- The indices `i` of the bytes `buf[i]` the loop of `NEON_handle_tail` reads in its
first `fuel` passes, entered with counter `i`. -/
def handle_tail_reads (len : Nat) : Nat → Nat → List Nat
  | 0, _ => []
  | fuel + 1, i =>
    if i < len then i :: handle_tail_reads len fuel ((i + 1) % W32) else []

/-- The register `adler` of a group of 32 bytes: `vpaddlq_u8(d0)`, then
`vpadalq_u8(adler, d1)`. -/
def group32_adler (buf : List Byte) : U16x8 :=
  vpadalq_u8 (vpaddlq_u8 (vld1q_u8 buf)) (vld1q_u8 (buf.drop 16))

/-- The register `sum2` of a group of 32 bytes: `vmull_u8` on the first 8 bytes, then
three times `vmlal_u8` on the next 8 bytes. -/
def group32_sum2 (buf : List Byte) : U16x8 :=
  vmlal_u8
    (vmlal_u8
      (vmlal_u8 (vmull_u8 (vget_low_u8 (vld1q_u8 taps)) (vget_low_u8 (vld1q_u8 buf)))
        (vget_high_u8 (vld1q_u8 taps)) (vget_high_u8 (vld1q_u8 buf)))
      (vget_low_u8 (vld1q_u8 (taps.drop 16))) (vget_low_u8 (vld1q_u8 (buf.drop 16))))
    (vget_high_u8 (vld1q_u8 (taps.drop 16))) (vget_high_u8 (vld1q_u8 (buf.drop 16)))

/-- The register `adler` of a group of 16 bytes: `vpaddlq_u8(d0)`. -/
def group16_adler (buf : List Byte) : U16x8 := vpaddlq_u8 (vld1q_u8 buf)

/-- The register `sum2` of a group of 16 bytes: `vmull_u8` on the first 8 bytes, then
`vmlal_u8` on the next 8 bytes, with the second half of the weight table. -/
def group16_sum2 (buf : List Byte) : U16x8 :=
  vmlal_u8 (vmull_u8 (vget_low_u8 (vld1q_u8 (taps.drop 16))) (vget_low_u8 (vld1q_u8 buf)))
    (vget_high_u8 (vld1q_u8 (taps.drop 16))) (vget_high_u8 (vld1q_u8 buf))

/-- Lane `j` of a `uint16x8_t` (lane 7 for every `j` above 6). -/
def lane16 (v : U16x8) : Nat → Nat
  | 0 => v.l0
  | 1 => v.l1
  | 2 => v.l2
  | 3 => v.l3
  | 4 => v.l4
  | 5 => v.l5
  | 6 => v.l6
  | _ => v.l7

/-! ## The functions with bounds-checked loads -/

/-- How a run with bounds-checked loads ends: with a value, at a load outside the buffer,
or with the fuel of a loop used up before the loop is left. -/
inductive Outcome (α : Type) where
  | value (a : α)
  | out_of_bounds
  | out_of_fuel
deriving DecidableEq

/-- A run of the unchecked model, seen as a run with no load outside the buffer: `none`
there means the fuel ran out. -/
def Outcome.of_option {α : Type} : Option α → Outcome α
  | some a => Outcome.value a
  | none => Outcome.out_of_fuel

/-- The byte `p[k]` when offset `k` lies inside the buffer that starts at `p`, `none` when
it lies past its end. -/
def ld_chk (p : List Byte) (k : Nat) : Option Nat :=
  match p.get? k with
  | some b => some b.val
  | none => none

/-- Intrinsic `vld1q_u8(p)` with bounds check: the register when each of the 16 bytes
`p[0] .. p[15]` lies inside the buffer, `none` otherwise. -/
def vld1q_u8_chk (p : List Byte) : Option U8x16 :=
  if (vld1q_u8_reads 0).all (fun k => (ld_chk p k).isSome) then some (vld1q_u8 p) else none

/-- The body of `while (len >= 2)` in `NEON_accum32` after its two loads `d0`, `d1`. The
weight table is a static array of 32 bytes, so its loads are not checked. -/
def group32_step (d0 d1 : U8x16) (adacc s2acc : U32x4) : U32x4 × U32x4 :=
  let t0 := vld1q_u8 taps
  let t1 := vld1q_u8 (taps.drop 16)
  let n_first_low := vget_low_u8 t0
  let n_first_high := vget_high_u8 t0
  let n_second_low := vget_low_u8 t1
  let n_second_high := vget_high_u8 t1
  let s2acc := vaddq_u32 s2acc (vshlq_n_u32 adacc 5)
  let adler := vpaddlq_u8 d0
  let adler := vpadalq_u8 adler d1
  let sum2 := vmull_u8 n_first_low (vget_low_u8 d0)
  let sum2 := vmlal_u8 sum2 n_first_high (vget_high_u8 d0)
  let sum2 := vmlal_u8 sum2 n_second_low (vget_low_u8 d1)
  let sum2 := vmlal_u8 sum2 n_second_high (vget_high_u8 d1)
  let adacc := vpadalq_u16 adacc adler
  let s2acc := vpadalq_u16 s2acc sum2
  (adacc, s2acc)

/-- The body of `while (len > 0)` in `NEON_accum32` after its load `d0`. -/
def group16_step (d0 : U8x16) (adacc s2acc : U32x4) : U32x4 × U32x4 :=
  let t1 := vld1q_u8 (taps.drop 16)
  let n_second_low := vget_low_u8 t1
  let n_second_high := vget_high_u8 t1
  let s2acc := vaddq_u32 s2acc (vshlq_n_u32 adacc 4)
  let adler := vpaddlq_u8 d0
  let sum2 := vmull_u8 n_second_low (vget_low_u8 d0)
  let sum2 := vmlal_u8 sum2 n_second_high (vget_high_u8 d0)
  let adacc := vpadalq_u16 adacc adler
  let s2acc := vpadalq_u16 s2acc sum2
  (adacc, s2acc)

/-- One group of 32 bytes with bounds-checked loads `d0 = vld1q_u8(buf)` and
`d1 = vld1q_u8(buf + 16)`. -/
def accum32_group32_chk (buf : List Byte) (adacc s2acc : U32x4) : Option (U32x4 × U32x4) :=
  match vld1q_u8_chk buf with
  | none => none
  | some d0 =>
    match vld1q_u8_chk (buf.drop 16) with
    | none => none
    | some d1 => some (group32_step d0 d1 adacc s2acc)

/-- One group of 16 bytes with the bounds-checked load `d0 = vld1q_u8(buf)`. -/
def accum32_group16_chk (buf : List Byte) (adacc s2acc : U32x4) : Option (U32x4 × U32x4) :=
  match vld1q_u8_chk buf with
  | none => none
  | some d0 => some (group16_step d0 adacc s2acc)

/-- The second loop of `NEON_accum32` with bounds-checked loads. -/
def accum32_loop16_chk : Nat → List Byte → U32x4 → U32x4 → Option (U32x4 × U32x4)
  | 0, _, adacc, s2acc => some (adacc, s2acc)
  | len + 1, buf, adacc, s2acc =>
    match accum32_group16_chk buf adacc s2acc with
    | none => none
    | some r => accum32_loop16_chk len (buf.drop 16) r.1 r.2

/-- The first loop of `NEON_accum32` with bounds-checked loads, followed by the second. -/
def accum32_loop32_chk : Nat → List Byte → U32x4 → U32x4 → Option (U32x4 × U32x4)
  | len + 2, buf, adacc, s2acc =>
    match accum32_group32_chk buf adacc s2acc with
    | none => none
    | some r => accum32_loop32_chk len (buf.drop 32) r.1 r.2
  | 1, buf, adacc, s2acc => accum32_loop16_chk 1 buf adacc s2acc
  | 0, buf, adacc, s2acc => accum32_loop16_chk 0 buf adacc s2acc

/-- `NEON_accum32(s, buf, len)` with bounds-checked loads: `none` when a load reaches
outside the buffer that starts at `buf`. -/
def NEON_accum32_chk (s : Nat × Nat) (buf : List Byte) (len : Nat) : Option (Nat × Nat) :=
  let adacc := vdupq_n_u32 0
  let s2acc := vdupq_n_u32 0
  let adacc := vsetq_lane_u32_0 s.1 adacc
  let s2acc := vsetq_lane_u32_0 s.2 s2acc
  match accum32_loop32_chk len buf adacc s2acc with
  | none => none
  | some r =>
    let adacc2 := vpadd_u32 (vget_low_u32 r.1) (vget_high_u32 r.1)
    let s2acc2 := vpadd_u32 (vget_low_u32 r.2) (vget_high_u32 r.2)
    let as := vpadd_u32 adacc2 s2acc2
    some (as.l0, as.l1)

/-- The loop of `NEON_handle_tail` with the read `buf[i]` bounds-checked. -/
def handle_tail_loop_chk (buf : List Byte) (len : Nat) :
    Nat → Nat → Nat × Nat → Outcome (Nat × Nat)
  | 0, _, _ => Outcome.out_of_fuel
  | fuel + 1, i, pair =>
    if i < len then
      match ld_chk buf i with
      | none => Outcome.out_of_bounds
      | some b =>
        let p0 := (pair.1 + b) % W32
        let p1 := (pair.2 + p0) % W32
        handle_tail_loop_chk buf len fuel ((i + 1) % W32) (p0, p1)
    else Outcome.value pair

/-- `NEON_handle_tail(pair, buf, len)` with bounds-checked reads. -/
def NEON_handle_tail_chk (fuel : Nat) (pair : Nat × Nat) (buf : List Byte) (len : Nat) :
    Outcome (Nat × Nat) :=
  handle_tail_loop_chk buf len fuel 0 pair

/-- One pass through the chunk loop of `NEON_adler32`, the call of `NEON_accum32` made
with bounds-checked loads on the bytes from `buf + i` on: `none` when a load reaches
outside the buffer. -/
def adler32_body_chk (buf : List Byte) (len : Nat) (st : LoopState) : Option Flow :=
  if st.i < len then
    let n := chunk_size len st
    if n < 16 then
      some (Flow.stop { st with n := n })
    else
      match NEON_accum32_chk st.pair (buf.drop st.i) (n / 16) with
      | none => none
      | some pair =>
        let pair := (pair.1 % M_BASE, pair.2 % M_BASE)
        let done := (st.done + (n / 16) * 16) % W32
        some (Flow.next { i := (st.i + n) % W32, n := n, done := done, pair := pair })
  else
    some (Flow.stop st)

/-- The chunk loop of `NEON_adler32` with bounds-checked loads. -/
def adler32_loop_chk (buf : List Byte) (len : Nat) : Nat → LoopState → Outcome LoopState
  | 0, _ => Outcome.out_of_fuel
  | fuel + 1, st =>
    match adler32_body_chk buf len st with
    | none => Outcome.out_of_bounds
    | some (Flow.next st1) => adler32_loop_chk buf len fuel st1
    | some (Flow.stop st1) => Outcome.value st1

/-- `NEON_adler32(adler, buf, len)` with every load of `NEON_accum32` and every read of
`NEON_handle_tail` bounds-checked against the buffer `buf`. -/
def NEON_adler32_chk (fuel : Nat) (adler : Nat) (buf : Option (List Byte)) (len : Nat) :
    Outcome Nat :=
  match buf with
  | none => Outcome.value 1
  | some buf =>
    match adler32_loop_chk buf len fuel (loop_init adler) with
    | Outcome.out_of_bounds => Outcome.out_of_bounds
    | Outcome.out_of_fuel => Outcome.out_of_fuel
    | Outcome.value st =>
      if st.done < len then
        match NEON_handle_tail_chk fuel st.pair (buf.drop st.done) (len - st.done) with
        | Outcome.out_of_bounds => Outcome.out_of_bounds
        | Outcome.out_of_fuel => Outcome.out_of_fuel
        | Outcome.value pair => Outcome.value (encode (pair.1 % M_BASE, pair.2 % M_BASE))
      else
        Outcome.value (encode st.pair)

/-! ## Lanes of one group -/

/-- A loaded byte is below 256. -/
theorem ld_lt (p : List Byte) (k : Nat) : ld p k < 256 := by
  unfold ld
  cases p.get? k with
  | none => decide
  | some b => exact b.isLt

/-- Every lane of a loaded register is a byte value. -/
theorem vld1q_u8_isBytes (p : List Byte) : IsBytes (vld1q_u8 p) := by
  simp only [IsBytes, vld1q_u8, ld_lt, and_self]

/-- The register `t0`: the weights 32 down to 17. -/
theorem taps_lo : vld1q_u8 taps =
    { l0 := 32, l1 := 31, l2 := 30, l3 := 29, l4 := 28, l5 := 27, l6 := 26, l7 := 25,
      l8 := 24, l9 := 23, l10 := 22, l11 := 21, l12 := 20, l13 := 19, l14 := 18,
      l15 := 17 } := by
  decide

/-- The register `t1`: the weights 16 down to 1. -/
theorem taps_hi : vld1q_u8 (taps.drop 16) =
    { l0 := 16, l1 := 15, l2 := 14, l3 := 13, l4 := 12, l5 := 11, l6 := 10, l7 := 9,
      l8 := 8, l9 := 7, l10 := 6, l11 := 5, l12 := 4, l13 := 3, l14 := 2, l15 := 1 } := by
  decide

/-- Adding 16-bit lanes pairwise into the 32-bit lanes adds their exact sum to the lane sum. -/
theorem hsum_vpadalq_u16 (a : U32x4) (v : U16x8) :
    hsum (vpadalq_u16 a v) = (hsum a + lanes16 v) % W32 := by
  simp only [hsum, vpadalq_u16, lanes16, W32]
  omega

/-- The lane sum after `s2acc += adacc << 5`. -/
theorem hsum_shl5 (s a : U32x4) :
    hsum (vaddq_u32 s (vshlq_n_u32 a 5)) = (hsum s + 32 * hsum a) % W32 := by
  simp only [hsum, vaddq_u32, vshlq_n_u32, W32, Nat.shiftLeft_eq]
  omega

/-- The lane sum after `s2acc += adacc << 4`. -/
theorem hsum_shl4 (s a : U32x4) :
    hsum (vaddq_u32 s (vshlq_n_u32 a 4)) = (hsum s + 16 * hsum a) % W32 := by
  simp only [hsum, vaddq_u32, vshlq_n_u32, W32, Nat.shiftLeft_eq]
  omega

/-- The lanes of `adler` in a group of 16 bytes hold, without wrap, the sum of the bytes. -/
theorem adler16_lanes (d : U8x16) (hd : IsBytes d) :
    lanes16 (vpaddlq_u8 d) = bsum16 d := by
  simp only [IsBytes] at hd
  simp only [lanes16, vpaddlq_u8, bsum16, W16]
  omega

/-- The lanes of `adler` in a group of 32 bytes hold, without wrap, the sum of the bytes. -/
theorem adler32_lanes (d0 d1 : U8x16) (h0 : IsBytes d0) (h1 : IsBytes d1) :
    lanes16 (vpadalq_u8 (vpaddlq_u8 d0) d1) = bsum16 d0 + bsum16 d1 := by
  simp only [IsBytes] at h0 h1
  simp only [lanes16, vpaddlq_u8, vpadalq_u8, bsum16, W16]
  omega

/-- The lanes of `sum2` in a group of 16 bytes hold, without wrap, the weighted sum of the
bytes. -/
theorem sum2_16_lanes (d : U8x16) (hd : IsBytes d) :
    lanes16 (vmlal_u8 (vmull_u8 (vget_low_u8 (vld1q_u8 (taps.drop 16))) (vget_low_u8 d))
      (vget_high_u8 (vld1q_u8 (taps.drop 16))) (vget_high_u8 d)) = wsum16 d := by
  simp only [IsBytes] at hd
  simp only [taps_hi, lanes16, vmull_u8, vmlal_u8, vget_low_u8, vget_high_u8, wsum16, W16]
  omega

/-- The lanes of `sum2` in a group of 32 bytes hold, without wrap, the weighted sum of the
bytes: the weight of byte `k` is `32 - k`. -/
theorem sum2_32_lanes (d0 d1 : U8x16) (h0 : IsBytes d0) (h1 : IsBytes d1) :
    lanes16 (vmlal_u8 (vmlal_u8 (vmlal_u8 (vmull_u8 (vget_low_u8 (vld1q_u8 taps)) (vget_low_u8 d0))
      (vget_high_u8 (vld1q_u8 taps)) (vget_high_u8 d0))
      (vget_low_u8 (vld1q_u8 (taps.drop 16))) (vget_low_u8 d1))
      (vget_high_u8 (vld1q_u8 (taps.drop 16))) (vget_high_u8 d1))
      = 16 * bsum16 d0 + wsum16 d0 + wsum16 d1 := by
  simp only [IsBytes] at h0 h1
  have e : vmlal_u8 (vmlal_u8 (vmlal_u8 (vmull_u8 (vget_low_u8 (vld1q_u8 taps)) (vget_low_u8 d0))
      (vget_high_u8 (vld1q_u8 taps)) (vget_high_u8 d0))
      (vget_low_u8 (vld1q_u8 (taps.drop 16))) (vget_low_u8 d1))
      (vget_high_u8 (vld1q_u8 (taps.drop 16))) (vget_high_u8 d1) =
      { l0 := 32 * d0.l0 + 24 * d0.l8 + 16 * d1.l0 + 8 * d1.l8,
        l1 := 31 * d0.l1 + 23 * d0.l9 + 15 * d1.l1 + 7 * d1.l9,
        l2 := 30 * d0.l2 + 22 * d0.l10 + 14 * d1.l2 + 6 * d1.l10,
        l3 := 29 * d0.l3 + 21 * d0.l11 + 13 * d1.l3 + 5 * d1.l11,
        l4 := 28 * d0.l4 + 20 * d0.l12 + 12 * d1.l4 + 4 * d1.l12,
        l5 := 27 * d0.l5 + 19 * d0.l13 + 11 * d1.l5 + 3 * d1.l13,
        l6 := 26 * d0.l6 + 18 * d0.l14 + 10 * d1.l6 + 2 * d1.l14,
        l7 := 25 * d0.l7 + 17 * d0.l15 + 9 * d1.l7 + d1.l15 } := by
    simp only [taps_hi, taps_lo, vmull_u8, vmlal_u8, vget_low_u8, vget_high_u8, W16,
      U16x8.mk.injEq]
    refine ⟨?_, ?_, ?_, ?_, ?_, ?_, ?_, ?_⟩ <;> omega
  rw [e]
  simp only [lanes16, wsum16, bsum16]
  omega

/-- A list with at least `n + 1` elements is a head and a tail with at least `n`. -/
theorem cons_of_succ_le (l : List Byte) (n : Nat) (h : n + 1 ≤ l.length) :
    ∃ b t, l = b :: t ∧ n ≤ t.length := by
  cases l with
  | nil => simp at h
  | cons b t => exact ⟨b, t, rfl, by simpa using h⟩

/-- A list with at least 16 elements starts with 16 heads. -/
theorem exists_cons16 (l : List Byte) (h : 16 ≤ l.length) :
    ∃ b0 b1 b2 b3 b4 b5 b6 b7 b8 b9 b10 b11 b12 b13 b14 b15 t,
      l = b0 :: b1 :: b2 :: b3 :: b4 :: b5 :: b6 :: b7 :: b8 :: b9 :: b10 :: b11 ::
        b12 :: b13 :: b14 :: b15 :: t := by
  obtain ⟨b0, t0, rfl, h0⟩ := cons_of_succ_le l 15 h
  obtain ⟨b1, t1, rfl, h1⟩ := cons_of_succ_le t0 14 h0
  obtain ⟨b2, t2, rfl, h2⟩ := cons_of_succ_le t1 13 h1
  obtain ⟨b3, t3, rfl, h3⟩ := cons_of_succ_le t2 12 h2
  obtain ⟨b4, t4, rfl, h4⟩ := cons_of_succ_le t3 11 h3
  obtain ⟨b5, t5, rfl, h5⟩ := cons_of_succ_le t4 10 h4
  obtain ⟨b6, t6, rfl, h6⟩ := cons_of_succ_le t5 9 h5
  obtain ⟨b7, t7, rfl, h7⟩ := cons_of_succ_le t6 8 h6
  obtain ⟨b8, t8, rfl, h8⟩ := cons_of_succ_le t7 7 h7
  obtain ⟨b9, t9, rfl, h9⟩ := cons_of_succ_le t8 6 h8
  obtain ⟨b10, t10, rfl, h10⟩ := cons_of_succ_le t9 5 h9
  obtain ⟨b11, t11, rfl, h11⟩ := cons_of_succ_le t10 4 h10
  obtain ⟨b12, t12, rfl, h12⟩ := cons_of_succ_le t11 3 h11
  obtain ⟨b13, t13, rfl, h13⟩ := cons_of_succ_le t12 2 h12
  obtain ⟨b14, t14, rfl, h14⟩ := cons_of_succ_le t13 1 h13
  obtain ⟨b15, t15, rfl, -⟩ := cons_of_succ_le t14 0 h14
  exact ⟨b0, b1, b2, b3, b4, b5, b6, b7, b8, b9, b10, b11, b12, b13, b14, b15, t15, rfl⟩

/-- The exact sums over the first 16 bytes of a buffer, by the lanes of the loaded register. -/
theorem seq_sums_take16 (p : Nat × Nat) (buf : List Byte) (h : 16 ≤ buf.length) :
    seq_sums p (buf.take 16) =
      (p.1 + bsum16 (vld1q_u8 buf), p.2 + 16 * p.1 + wsum16 (vld1q_u8 buf)) := by
  obtain ⟨b0, b1, b2, b3, b4, b5, b6, b7, b8, b9, b10, b11, b12, b13, b14, b15, t, rfl⟩ :=
    exists_cons16 buf h
  simp only [seq_sums, List.take_succ_cons, List.take_zero, List.foldl_cons, List.foldl_nil,
    tail_step, vld1q_u8, ld, List.get?_cons_succ, List.get?_cons_zero, bsum16, wsum16,
    Prod.mk.injEq]
  constructor <;> omega

/-- The exact sums over a concatenation. -/
theorem seq_sums_append (p : Nat × Nat) (xs ys : List Byte) :
    seq_sums p (xs ++ ys) = seq_sums (seq_sums p xs) ys := by
  simp only [seq_sums, List.foldl_append]

/-- The exact sums over the first `m + n` bytes, split after `m`. -/
theorem seq_sums_take_add (p : Nat × Nat) (buf : List Byte) (m n : Nat) :
    seq_sums p (buf.take (m + n)) = seq_sums (seq_sums p (buf.take m)) ((buf.drop m).take n) := by
  rw [List.take_add, seq_sums_append]

/-- One group of 16 bytes keeps the lane accumulators on the sequential sums. -/
theorem group16_tracks (buf : List Byte) (h : 16 ≤ buf.length) (adacc s2acc : U32x4)
    (p : Nat × Nat) (ht : Tracks adacc s2acc p) :
    Tracks (accum32_group16 buf adacc s2acc).1 (accum32_group16 buf adacc s2acc).2
      (seq_sums p (buf.take 16)) := by
  have hb := vld1q_u8_isBytes buf
  have e1 := hsum_vpadalq_u16 adacc (vpaddlq_u8 (vld1q_u8 buf))
  have e2 := hsum_vpadalq_u16 (vaddq_u32 s2acc (vshlq_n_u32 adacc 4))
    (vmlal_u8 (vmull_u8 (vget_low_u8 (vld1q_u8 (taps.drop 16))) (vget_low_u8 (vld1q_u8 buf)))
      (vget_high_u8 (vld1q_u8 (taps.drop 16))) (vget_high_u8 (vld1q_u8 buf)))
  rw [adler16_lanes _ hb] at e1
  rw [sum2_16_lanes _ hb, hsum_shl4] at e2
  rw [seq_sums_take16 p buf h]
  simp only [Tracks, hsum, W32] at ht e1 e2 ⊢
  simp only [accum32_group16]
  constructor
  · rw [e1]; omega
  · rw [e2]; omega

/-- One group of 32 bytes keeps the lane accumulators on the sequential sums. -/
theorem group32_tracks (buf : List Byte) (h : 32 ≤ buf.length) (adacc s2acc : U32x4)
    (p : Nat × Nat) (ht : Tracks adacc s2acc p) :
    Tracks (accum32_group32 buf adacc s2acc).1 (accum32_group32 buf adacc s2acc).2
      (seq_sums p (buf.take 32)) := by
  have hb0 := vld1q_u8_isBytes buf
  have hb1 := vld1q_u8_isBytes (buf.drop 16)
  have e1 := hsum_vpadalq_u16 adacc
    (vpadalq_u8 (vpaddlq_u8 (vld1q_u8 buf)) (vld1q_u8 (buf.drop 16)))
  have e2 := hsum_vpadalq_u16 (vaddq_u32 s2acc (vshlq_n_u32 adacc 5))
    (vmlal_u8 (vmlal_u8 (vmlal_u8 (vmull_u8 (vget_low_u8 (vld1q_u8 taps))
      (vget_low_u8 (vld1q_u8 buf)))
      (vget_high_u8 (vld1q_u8 taps)) (vget_high_u8 (vld1q_u8 buf)))
      (vget_low_u8 (vld1q_u8 (taps.drop 16))) (vget_low_u8 (vld1q_u8 (buf.drop 16))))
      (vget_high_u8 (vld1q_u8 (taps.drop 16))) (vget_high_u8 (vld1q_u8 (buf.drop 16))))
  rw [adler32_lanes _ _ hb0 hb1] at e1
  rw [sum2_32_lanes _ _ hb0 hb1, hsum_shl5] at e2
  have hd : 16 ≤ (buf.drop 16).length := by rw [List.length_drop]; omega
  rw [show (32 : Nat) = 16 + 16 from rfl, seq_sums_take_add, seq_sums_take16 p buf (by omega),
    seq_sums_take16 _ _ hd]
  simp only [Tracks, hsum, W32] at ht e1 e2 ⊢
  simp only [accum32_group32]
  constructor
  · rw [e1]; omega
  · rw [e2]; omega

/-- The loop over groups of 16 bytes keeps the lane accumulators on the sequential sums. -/
theorem loop16_tracks (n : Nat) : ∀ (buf : List Byte) (adacc s2acc : U32x4) (p : Nat × Nat),
    16 * n ≤ buf.length → Tracks adacc s2acc p →
    Tracks (accum32_loop16 n buf adacc s2acc).1 (accum32_loop16 n buf adacc s2acc).2
      (seq_sums p (buf.take (16 * n))) := by
  induction n with
  | zero =>
    intro buf adacc s2acc p _ ht
    simpa [accum32_loop16, seq_sums] using ht
  | succ n ih =>
    intro buf adacc s2acc p h ht
    have hd : 16 * n ≤ (buf.drop 16).length := by rw [List.length_drop]; omega
    have := ih (buf.drop 16) _ _ _ hd (group16_tracks buf (by omega) adacc s2acc p ht)
    rw [show 16 * (n + 1) = 16 + 16 * n by ring, seq_sums_take_add]
    simpa [accum32_loop16] using this

/-- The loops of `NEON_accum32` keep the lane accumulators on the sequential sums. -/
theorem loop32_tracks (n : Nat) : ∀ (buf : List Byte) (adacc s2acc : U32x4) (p : Nat × Nat),
    16 * n ≤ buf.length → Tracks adacc s2acc p →
    Tracks (accum32_loop32 n buf adacc s2acc).1 (accum32_loop32 n buf adacc s2acc).2
      (seq_sums p (buf.take (16 * n))) := by
  induction n using Nat.strong_induction_on with
  | _ n ih =>
    intro buf adacc s2acc p h ht
    match n, ih, h with
    | 0, _, h => simpa [accum32_loop32] using loop16_tracks 0 buf adacc s2acc p h ht
    | 1, _, h => simpa [accum32_loop32] using loop16_tracks 1 buf adacc s2acc p h ht
    | n + 2, ih, h =>
      have hd : 16 * n ≤ (buf.drop 32).length := by rw [List.length_drop]; omega
      have := ih n (by omega) (buf.drop 32) _ _ _ hd
        (group32_tracks buf (by omega) adacc s2acc p ht)
      rw [show 16 * (n + 2) = 32 + 16 * n by ring, seq_sums_take_add]
      simpa [accum32_loop32] using this

/-- `NEON_accum32` over `g` groups returns the sequential sums over `16 * g` bytes modulo
`2^32`. -/
theorem NEON_accum32_eq (p : Nat × Nat) (buf : List Byte) (g : Nat) (h : 16 * g ≤ buf.length) :
    NEON_accum32 p buf g =
      ((seq_sums p (buf.take (16 * g))).1 % W32, (seq_sums p (buf.take (16 * g))).2 % W32) := by
  have h0 : Tracks (vsetq_lane_u32_0 p.1 (vdupq_n_u32 0))
      (vsetq_lane_u32_0 p.2 (vdupq_n_u32 0)) p := by
    simp [Tracks, vsetq_lane_u32_0, vdupq_n_u32, W32]
  have := loop32_tracks g buf _ _ p h h0
  simp only [Tracks, W32] at this
  simp only [NEON_accum32, vpadd_u32, vget_low_u32, vget_high_u32, W32, Prod.mk.injEq]
  omega

/-! ## The scalar loop, bounds and the sequential definition -/

/-- No byte: the sums are unchanged. -/
theorem seq_sums_nil (p : Nat × Nat) : seq_sums p [] = p := rfl

/-- The exact sums, one byte at the front. -/
theorem seq_sums_cons (p : Nat × Nat) (b : Byte) (bs : List Byte) :
    seq_sums p (b :: bs) = seq_sums (tail_step p b) bs := rfl

/-- The exact sums, one byte at the end. -/
theorem seq_sums_concat (p : Nat × Nat) (bs : List Byte) (b : Byte) :
    seq_sums p (bs ++ [b]) = tail_step (seq_sums p bs) b := by
  simp [seq_sums]

/-- Wrapping before a step does not change the wrapped result of the step. -/
theorem wrap32_tail_step (p : Nat × Nat) (b : Byte) :
    wrap32 (tail_step (wrap32 p) b) = wrap32 (tail_step p b) := by
  simp only [wrap32, tail_step, W32, Prod.mk.injEq]
  omega

/-- Below `2^32` bytes the loop of `NEON_handle_tail`, entered at `i`, is left after
`len - i` passes with the sequential sums modulo `2^32`. -/
theorem handle_tail_loop_eq (buf : List Byte) (len : Nat) (hlen : len ≤ buf.length)
    (h32 : len < W32) : ∀ (fuel i : Nat) (p : Nat × Nat), i ≤ len → len - i < fuel →
    handle_tail_loop buf len fuel i (wrap32 p) =
      some (wrap32 (seq_sums p ((buf.drop i).take (len - i)))) := by
  have h32n : len < 4294967296 := h32
  intro fuel
  induction fuel with
  | zero => intro i p _ h; omega
  | succ fuel ih =>
    intro i p hi hf
    by_cases hlt : i < len
    · have hib : i < buf.length := by omega
      have hd : buf.drop i = buf[i] :: buf.drop (i + 1) := List.drop_eq_getElem_cons hib
      have hld : ld buf i = (buf[i]).val := by
        simp [ld, List.getElem?_eq_getElem hib]
      have hw : (i + 1) % W32 = i + 1 := Nat.mod_eq_of_lt (by simp only [W32]; omega)
      have hk : len - i = (len - (i + 1)) + 1 := by omega
      have hp : (((wrap32 p).1 + ld buf i) % W32,
          ((wrap32 p).2 + ((wrap32 p).1 + ld buf i) % W32) % W32) =
          wrap32 (tail_step p buf[i]) := by
        rw [hld]
        simp only [wrap32, tail_step, W32, Prod.mk.injEq]
        omega
      have hi1 := ih (i + 1) (tail_step p buf[i]) (by omega) (by omega)
      rw [handle_tail_loop, if_pos hlt]
      simp only []
      rw [hw, hp, hi1, hd, hk, List.take_succ_cons, seq_sums_cons]
    · have : len - i = 0 := by omega
      rw [handle_tail_loop, if_neg hlt, this, List.take_zero, seq_sums_nil]

/-- Below `2^32` bytes `NEON_handle_tail` returns the sequential sums modulo `2^32`. -/
theorem NEON_handle_tail_eq (fuel : Nat) (p : Nat × Nat) (buf : List Byte) (len : Nat)
    (hlen : len ≤ buf.length) (h32 : len < W32) (hf : len < fuel) :
    NEON_handle_tail fuel (wrap32 p) buf len = some (wrap32 (seq_sums p (buf.take len))) := by
  have := handle_tail_loop_eq buf len hlen h32 fuel 0 p (Nat.zero_le _) (by omega)
  simpa [NEON_handle_tail] using this

/-- Twice the triangular number. -/
theorem tri_two (n : Nat) : 2 * tri n = n * (n + 1) := by
  induction n with
  | zero => rfl
  | succ n ih => simp only [tri]; rw [Nat.mul_add, ih]; ring

/-- Bounds of the exact sums after `n` bytes: `A + 255 n` and `B + n A + 255 n (n + 1) / 2`. -/
theorem seq_sums_le (p : Nat × Nat) (bs : List Byte) :
    (seq_sums p bs).1 ≤ p.1 + 255 * bs.length ∧
    (seq_sums p bs).2 ≤ p.2 + bs.length * p.1 + 255 * tri bs.length := by
  induction bs using List.reverseRecOn with
  | nil => simp [seq_sums, tri]
  | append_singleton bs b ih =>
    have hb := b.isLt
    rw [seq_sums_concat]
    simp only [tail_step, List.length_append, List.length_singleton, tri, Nat.add_mul, Nat.mul_add,
      Nat.one_mul, Nat.mul_one]
    omega

/-- The exact sums only grow along the buffer. -/
theorem seq_sums_mono (p : Nat × Nat) (bs : List Byte) (m : Nat) :
    (seq_sums p (bs.take m)).1 ≤ (seq_sums p bs).1 ∧
    (seq_sums p (bs.take m)).2 ≤ (seq_sums p bs).2 := by
  have hmono : ∀ (ys : List Byte) (q : Nat × Nat),
      q.1 ≤ (seq_sums q ys).1 ∧ q.2 ≤ (seq_sums q ys).2 := by
    intro ys
    induction ys using List.reverseRecOn with
    | nil => intro q; simp [seq_sums]
    | append_singleton ys y ih =>
      intro q
      rw [seq_sums_concat]
      have := ih q
      simp only [tail_step]
      omega
  have := hmono (bs.drop m) (seq_sums p (bs.take m))
  rw [← seq_sums_append, List.take_append_drop] at this
  exact this

/-- From a pair of 16-bit values the exact sums over at most 5552 bytes fit in 32 bits. -/
theorem seq_sums_lt_W32 (p : Nat × Nat) (bs : List Byte) (h1 : p.1 ≤ 65535) (h2 : p.2 ≤ 65535)
    (hn : bs.length ≤ 5552) :
    (seq_sums p bs).1 < W32 ∧ (seq_sums p bs).2 < W32 := by
  obtain ⟨ha, hb⟩ := seq_sums_le p bs
  have ht : 2 * tri bs.length ≤ 5552 * 5553 := by
    rw [tri_two]; exact Nat.mul_le_mul hn (by omega)
  have hm : bs.length * p.1 ≤ 5552 * 65535 := Nat.mul_le_mul hn h1
  simp only [W32]
  omega

/-- Over at least one byte the sums of the sequential definition are the exact sums reduced
modulo 65521. -/
theorem ref_fold_eq (p : Nat × Nat) (bs : List Byte) (h : bs ≠ []) :
    ref_fold p bs = reduce (seq_sums p bs) := by
  induction bs using List.reverseRecOn with
  | nil => exact absurd rfl h
  | append_singleton bs b ih =>
    rw [seq_sums_concat]
    simp only [ref_fold, List.foldl_append, List.foldl_cons, List.foldl_nil]
    by_cases hb : bs = []
    · subst hb
      simp only [List.foldl_nil, seq_sums_nil, reference_step, reduce, tail_step, M_BASE,
        Prod.mk.injEq, true_and]
      omega
    · have := ih hb
      simp only [ref_fold] at this
      rw [this]
      generalize seq_sums p bs = q
      obtain ⟨x, y⟩ := q
      simp only [reference_step, reduce, tail_step, M_BASE, Prod.mk.injEq]
      omega

/-- Masking with `0xffff` is the remainder modulo `2^16`. -/
theorem and_ffff (x : Nat) : x &&& 0xffff = x % 65536 :=
  Nat.and_pow_two_sub_one_eq_mod x 16

/-- The two halves `decode` returns, by division and remainder. -/
theorem decode_eq (s : Nat) : decode s = (s % 65536, s / 65536 % 65536) := by
  have h1 : s % 65536 % 4294967296 = s % 65536 := by omega
  have h2 : s / 65536 % 65536 % 4294967296 = s / 65536 % 65536 := by omega
  simp only [decode, and_ffff, Nat.shiftRight_eq_div_pow, W32, Nat.reducePow, h1, h2]

/-- The value `encode` returns for a pair of 16-bit values. -/
theorem encode_eq (p : Nat × Nat) (h1 : p.1 < 65536) (h2 : p.2 < 65536) :
    encode p = 65536 * p.2 + p.1 := by
  have h := Nat.mul_add_lt_is_or (show p.1 < 2 ^ 16 from h1) p.2
  have e : (p.2 <<< 16) % W32 = 2 ^ 16 * p.2 := by
    rw [Nat.shiftLeft_eq]
    simp only [W32]
    omega
  rw [encode, e, ← h]

/-- The sums of the sequential definition over a concatenation. -/
theorem ref_fold_append (p : Nat × Nat) (xs ys : List Byte) :
    ref_fold p (xs ++ ys) = ref_fold (ref_fold p xs) ys := by
  simp only [ref_fold, List.foldl_append]

/-- The sums of the sequential definition over the first `m + n` bytes, split after `m`. -/
theorem ref_fold_take_add (p : Nat × Nat) (buf : List Byte) (m n : Nat) :
    ref_fold (ref_fold p (buf.take m)) ((buf.drop m).take n) = ref_fold p (buf.take (m + n)) := by
  rw [List.take_add, ref_fold_append]

/-- From a pair of 16-bit values the sums of the sequential definition are 16-bit values. -/
theorem ref_fold_le (p : Nat × Nat) (bs : List Byte) (h1 : p.1 ≤ 65535) (h2 : p.2 ≤ 65535) :
    (ref_fold p bs).1 ≤ 65535 ∧ (ref_fold p bs).2 ≤ 65535 := by
  by_cases hb : bs = []
  · subst hb; exact ⟨h1, h2⟩
  · rw [ref_fold_eq p bs hb]
    simp only [reduce, M_BASE]
    omega

/-- Over at least one byte the sums of the sequential definition are below 65521. -/
theorem ref_fold_lt (p : Nat × Nat) (bs : List Byte) (hb : bs ≠ []) :
    (ref_fold p bs).1 < 65521 ∧ (ref_fold p bs).2 < 65521 := by
  rw [ref_fold_eq p bs hb]
  simp only [reduce, M_BASE]
  omega

/-- A pair of 32-bit values is stored unchanged. -/
theorem wrap32_of_lt (p : Nat × Nat) (h1 : p.1 < W32) (h2 : p.2 < W32) : wrap32 p = p := by
  simp only [wrap32, Nat.mod_eq_of_lt h1, Nat.mod_eq_of_lt h2]

/-- From a pair of 16-bit values and over at most 5552 bytes `NEON_accum32` returns the exact
sums. -/
theorem accum32_exact (p : Nat × Nat) (h1 : p.1 ≤ 65535) (h2 : p.2 ≤ 65535) (buf : List Byte)
    (g : Nat) (hg : 16 * g ≤ 5552) (hb : 16 * g ≤ buf.length) :
    NEON_accum32 p buf g = seq_sums p (buf.take (16 * g)) := by
  have hl : (buf.take (16 * g)).length ≤ 5552 := by
    rw [List.length_take]; omega
  obtain ⟨ha, hb2⟩ := seq_sums_lt_W32 p _ h1 h2 hl
  rw [NEON_accum32_eq p buf g hb, Nat.mod_eq_of_lt ha, Nat.mod_eq_of_lt hb2]

/-- From a pair of 16-bit values and over at most 5552 bytes `NEON_handle_tail` returns the
exact sums. -/
theorem handle_tail_exact (fuel : Nat) (p : Nat × Nat) (h1 : p.1 ≤ 65535) (h2 : p.2 ≤ 65535)
    (buf : List Byte) (len : Nat) (hlen : len ≤ buf.length) (h : len ≤ 5552) (hf : len < fuel) :
    NEON_handle_tail fuel p buf len = some (seq_sums p (buf.take len)) := by
  have hl : (buf.take len).length ≤ 5552 := by
    rw [List.length_take]; omega
  obtain ⟨ha, hb2⟩ := seq_sums_lt_W32 p _ h1 h2 hl
  have hp : wrap32 p = p := wrap32_of_lt p (by simp only [W32]; omega) (by simp only [W32]; omega)
  have := NEON_handle_tail_eq fuel p buf len hlen (by simp only [W32]; omega) hf
  rw [hp, wrap32_of_lt _ ha hb2] at this
  exact this

/-- A call of `NEON_accum32` followed by the reduction step advances the sums of the
sequential definition over the bytes of the call. -/
theorem chunk_reduce (p : Nat × Nat) (h1 : p.1 ≤ 65535) (h2 : p.2 ≤ 65535) (buf : List Byte)
    (g : Nat) (hg1 : 1 ≤ g) (hg : 16 * g ≤ 5552) (hb : 16 * g ≤ buf.length) :
    ((NEON_accum32 p buf g).1 % M_BASE, (NEON_accum32 p buf g).2 % M_BASE) =
      ref_fold p (buf.take (16 * g)) := by
  have hne : buf.take (16 * g) ≠ [] := by
    intro h
    have := congrArg List.length h
    rw [List.length_take, List.length_nil] at this
    omega
  rw [accum32_exact p h1 h2 buf g hg hb, ref_fold_eq _ _ hne, reduce]

/-! ## The chunk loop -/

/-- A pass entered with `i >= len` leaves the loop with the state unchanged. -/
theorem body_at_end (buf : List Byte) (len : Nat) (st : LoopState) (h : ¬ st.i < len) :
    adler32_body buf len st = Flow.stop st := by
  simp only [adler32_body, if_neg h]

/-- A pass with at least 5552 bytes left takes a full chunk. -/
theorem body_full (buf : List Byte) (len : Nat) (hlen : len ≤ buf.length) (h32 : len < W32)
    (p0 : Nat × Nat) (h1 : p0.1 ≤ 65535) (h2 : p0.2 ≤ 65535) (k : Nat)
    (hfull : 5552 * k + 5552 ≤ len) :
    adler32_body buf len (chunk_start p0 buf k) = Flow.next (chunk_start p0 buf (k + 1)) := by
  have h32n : len < 4294967296 := h32
  obtain ⟨hp1, hp2⟩ := ref_fold_le p0 (buf.take (5552 * k)) h1 h2
  have hdl : (buf.drop (5552 * k)).length = buf.length - 5552 * k := List.length_drop _ _
  have hlt : 5552 * k < len := by omega
  have hcs : chunk_size len (chunk_start p0 buf k) = 5552 := by
    simp only [chunk_size, chunk_start, if_neg (show ¬ len - 5552 * k < 5552 by omega)]
  have hred := chunk_reduce _ hp1 hp2 (buf.drop (5552 * k)) 347
    (by omega) (by omega) (by omega)
  rw [ref_fold_take_add] at hred
  have hi : (5552 * k + 5552) % W32 = 5552 * (k + 1) := by
    simp only [W32]; omega
  have hd : (5552 * k + 347 * 16) % W32 = 5552 * (k + 1) := by
    simp only [W32]; omega
  have he : 5552 * k + 16 * 347 = 5552 * (k + 1) := by omega
  rw [he] at hred
  simp only [adler32_body, hcs, show ¬ (5552 < 16) by omega, if_false,
    show 5552 / 16 = 347 by norm_num]
  simp only [chunk_start, if_pos hlt, hred, hi, hd]

/-- A pass with fewer than 16 bytes left leaves the loop by `break`. -/
theorem body_break (buf : List Byte) (len : Nat) (h32 : len < W32) (p0 : Nat × Nat) (k : Nat)
    (hlt : 5552 * k < len) (hsmall : len - 5552 * k < 16) :
    adler32_body buf len (chunk_start p0 buf k) =
      Flow.stop { chunk_start p0 buf k with n := len - 5552 * k } := by
  have h32n : len < 4294967296 := h32
  have hcs : chunk_size len (chunk_start p0 buf k) = len - 5552 * k := by
    simp only [chunk_size, chunk_start, if_pos (show len - 5552 * k < 5552 by omega), W32]
    omega
  simp only [adler32_body, hcs, if_pos hsmall]
  simp only [chunk_start, if_pos hlt]

/-- A pass with at least 16 and fewer than 5552 bytes left takes the whole groups of 16 bytes
and moves `i` to `len`. -/
theorem body_short (buf : List Byte) (len : Nat) (hlen : len ≤ buf.length) (h32 : len < W32)
    (p0 : Nat × Nat) (h1 : p0.1 ≤ 65535) (h2 : p0.2 ≤ 65535) (k : Nat)
    (hk : 5552 * k ≤ len) (hshort : len - 5552 * k < 5552) (hbig : 16 ≤ len - 5552 * k) :
    adler32_body buf len (chunk_start p0 buf k) =
      Flow.next { i := len, n := len - 5552 * k, done := len - len % 16,
                  pair := ref_fold p0 (buf.take (len - len % 16)) } := by
  have h32n : len < 4294967296 := h32
  obtain ⟨hp1, hp2⟩ := ref_fold_le p0 (buf.take (5552 * k)) h1 h2
  have hdl : (buf.drop (5552 * k)).length = buf.length - 5552 * k := List.length_drop _ _
  have hlt : 5552 * k < len := by omega
  have hcs : chunk_size len (chunk_start p0 buf k) = len - 5552 * k := by
    simp only [chunk_size, chunk_start, if_pos hshort, W32]
    omega
  have hred := chunk_reduce _ hp1 hp2 (buf.drop (5552 * k)) ((len - 5552 * k) / 16)
    (by omega) (by omega) (by omega)
  rw [ref_fold_take_add] at hred
  have hi : (5552 * k + (len - 5552 * k)) % W32 = len := by
    simp only [W32]; omega
  have hd : (5552 * k + (len - 5552 * k) / 16 * 16) % W32 = len - len % 16 := by
    simp only [W32]; omega
  have he : 5552 * k + 16 * ((len - 5552 * k) / 16) = len - len % 16 := by omega
  rw [he] at hred
  simp only [adler32_body, hcs, if_neg (show ¬ len - 5552 * k < 16 by omega)]
  simp only [chunk_start, if_pos hlt, hred, hi, hd]

/-- For `len < 2^32` the chunk loop is left within `len / 5552 + 2` passes, with
`done = len - len % 16` and the sums of the sequential definition over the first `done` bytes. -/
theorem adler32_loop_spec (buf : List Byte) (len : Nat) (hlen : len ≤ buf.length)
    (h32 : len < W32) (p0 : Nat × Nat) (h1 : p0.1 ≤ 65535) (h2 : p0.2 ≤ 65535) :
    ∀ (fuel k : Nat), 5552 * k ≤ len → (len - 5552 * k) / 5552 + 2 ≤ fuel →
      ∃ st, adler32_loop buf len fuel (chunk_start p0 buf k) = some st ∧
        st.done = len - len % 16 ∧ st.pair = ref_fold p0 (buf.take st.done) := by
  intro fuel
  induction fuel with
  | zero => intro k _ h; omega
  | succ fuel ih =>
    intro k hk hf
    rw [adler32_loop]
    by_cases hlt : 5552 * k < len
    · by_cases hfull : len - 5552 * k < 5552
      · by_cases hsmall : len - 5552 * k < 16
        · rw [body_break buf len h32 p0 k hlt hsmall]
          refine ⟨_, rfl, ?_, rfl⟩
          show 5552 * k = len - len % 16
          omega
        · obtain ⟨f, rfl⟩ : ∃ f, fuel = f + 1 := ⟨fuel - 1, by omega⟩
          have hloop : ∀ st : LoopState, st.i = len →
              adler32_loop buf len (f + 1) st = some st := by
            intro st hst
            rw [adler32_loop, body_at_end buf len st (by omega)]
          rw [body_short buf len hlen h32 p0 h1 h2 k hk hfull (by omega)]
          exact ⟨_, hloop _ rfl, rfl, rfl⟩
      · rw [body_full buf len hlen h32 p0 h1 h2 k (by omega)]
        exact ih (k + 1) (by omega) (by omega)
    · rw [body_at_end buf len _ hlt]
      refine ⟨_, rfl, ?_, rfl⟩
      show 5552 * k = len - len % 16
      omega

/-- The halves of the seed are 16-bit values. -/
theorem wrap32_decode (s : Nat) : (decode s).1 ≤ 65535 ∧ (decode s).2 ≤ 65535 := by
  rw [decode_eq]
  constructor <;> simp only <;> omega

/-- For `len < 2^32` and enough fuel `NEON_adler32` returns the encoded sums of the sequential
definition over the first `len` bytes of the buffer. -/
theorem NEON_adler32_eq (fuel s : Nat) (buf : List Byte) (len : Nat) (hlen : len ≤ buf.length)
    (h32 : len < W32) (hf : len / 5552 + 16 ≤ fuel) :
    NEON_adler32 fuel s (some buf) len = some (encode (ref_fold (decode s) (buf.take len))) := by
  obtain ⟨h1, h2⟩ := wrap32_decode s
  obtain ⟨st, hst, hdone, hpair⟩ :=
    adler32_loop_spec buf len hlen h32 (decode s) h1 h2 fuel 0 (by omega) (by omega)
  have hinit : chunk_start (decode s) buf 0 = loop_init s := by
    simp [chunk_start, loop_init, M_NMAX, ref_fold]
  rw [hinit] at hst
  simp only [NEON_adler32, hst]
  by_cases hd : st.done < len
  · obtain ⟨hp1, hp2⟩ := ref_fold_le (decode s) (buf.take st.done) h1 h2
    have hdl : (buf.drop st.done).length = buf.length - st.done := List.length_drop _ _
    have ht := handle_tail_exact fuel st.pair (hpair ▸ hp1) (hpair ▸ hp2) (buf.drop st.done)
      (len - st.done) (by omega) (by omega) (by omega)
    have hne : (buf.drop st.done).take (len - st.done) ≠ [] := by
      intro h
      have := congrArg List.length h
      rw [List.length_take, List.length_nil] at this
      omega
    have hr := ref_fold_eq st.pair _ hne
    rw [hpair, ref_fold_take_add, show st.done + (len - st.done) = len by omega] at hr
    rw [if_pos hd, ht]
    simp only [hr, hpair, reduce]
  · have : st.done = len := by omega
    rw [if_neg hd, hpair, this]

/-! ## The claims -/

/-- Decoding an encoded pair of 16-bit values gives the pair back. -/
theorem decode_encode (p : Nat × Nat) (h1 : p.1 < 65536) (h2 : p.2 < 65536) :
    decode (encode p) = p := by
  rw [decode_eq, encode_eq p h1 h2]
  obtain ⟨a, b⟩ := p
  simp only [Prod.mk.injEq] at *
  omega

/-- Encoding the decoded halves of a value gives its low 32 bits. -/
theorem encode_decode (v : Nat) : encode (decode v) = v % W32 := by
  rw [decode_eq, encode_eq _ (Nat.mod_lt _ (by norm_num)) (Nat.mod_lt _ (by norm_num))]
  simp only [W32]
  omega

/-- The sequential reference definition, by `decode`, `ref_fold` and `encode`. -/
theorem reference_eq (s : Nat) (b : List Byte) :
    adler32_reference s b = encode (ref_fold (decode s) b) := by
  have hd : decode s = (s &&& 0xFFFF, (s >>> 16) &&& 0xFFFF) := by
    rw [decode_eq, and_ffff, and_ffff, Nat.shiftRight_eq_div_pow]
  obtain ⟨h1, h2⟩ := wrap32_decode s
  obtain ⟨hp1, hp2⟩ := ref_fold_le (decode s) b h1 h2
  have hsh : ((ref_fold (decode s) b).2 <<< 16) % W32 = (ref_fold (decode s) b).2 <<< 16 := by
    rw [Nat.shiftLeft_eq]
    simp only [W32]
    omega
  rw [encode, hsh]
  simp only [adler32_reference, ← hd, ref_fold]

/-- C1: for every seed `s` and every (non-null) byte sequence `b` of length `L < 2^32`,
`NEON_adler32(s, b, L)` returns the value of the sequential reference definition
(given enough fuel for its loops, `L / 5552 + 16` passes). -/
theorem NEON_adler32_eq_reference (s : Nat) (b : List Byte) (fuel : Nat)
    (hL : b.length < 2 ^ 32) (hf : b.length / 5552 + 16 ≤ fuel) :
    NEON_adler32 fuel s (some b) b.length = some (adler32_reference s b) := by
  rw [NEON_adler32_eq fuel s b b.length (Nat.le_refl _) hL hf, List.take_length, reference_eq]

/-- C1 at a buffer of 40 bytes and a seed whose halves are not reduced. -/
theorem NEON_adler32_eq_reference_witness :
    sample40.length < 2 ^ 32 ∧ sample40.length / 5552 + 16 ≤ 17 ∧
    NEON_adler32 17 0xFFF1FFF2 (some sample40) sample40.length =
      some (adler32_reference 0xFFF1FFF2 sample40) :=
  ⟨by decide, by decide,
    NEON_adler32_eq_reference 0xFFF1FFF2 sample40 17 (by decide) (by decide)⟩

/-- C2: splitting the buffer at any index `k` and feeding the checksum of the first part as
the seed of the second gives the checksum of the whole buffer. -/
theorem NEON_adler32_incremental (s : Nat) (b : List Byte) (k fuel : Nat) (hk : k ≤ b.length)
    (hL : b.length < 2 ^ 32) (hf : b.length / 5552 + 16 ≤ fuel) :
    ∃ r1 r, NEON_adler32 fuel s (some (b.take k)) k = some r1 ∧
      NEON_adler32 fuel r1 (some (b.drop k)) (b.length - k) = some r ∧
      NEON_adler32 fuel s (some b) b.length = some r := by
  have hlt : (b.take k).length = k := by rw [List.length_take]; omega
  have hld : (b.drop k).length = b.length - k := List.length_drop _ _
  have hW : (2 : Nat) ^ 32 = W32 := by norm_num [W32]
  have hk5 : k / 5552 ≤ b.length / 5552 := Nat.div_le_div_right hk
  have hd5 : (b.length - k) / 5552 ≤ b.length / 5552 := Nat.div_le_div_right (Nat.sub_le _ _)
  obtain ⟨h1, h2⟩ := wrap32_decode s
  obtain ⟨hp1, hp2⟩ := ref_fold_le (decode s) (b.take k) h1 h2
  refine ⟨encode (ref_fold (decode s) (b.take k)), encode (ref_fold (decode s) b), ?_, ?_, ?_⟩
  · have := NEON_adler32_eq fuel s (b.take k) k (by omega) (by omega) (by omega)
    rw [this, List.take_take, Nat.min_self]
  · have := NEON_adler32_eq fuel (encode (ref_fold (decode s) (b.take k))) (b.drop k)
      (b.length - k) (by omega) (by omega) (by omega)
    rw [this, decode_encode _ (by omega) (by omega), ← hld, List.take_length, ← ref_fold_append,
      List.take_append_drop]
  · have := NEON_adler32_eq fuel s b b.length (Nat.le_refl _) (by omega) hf
    rw [this, List.take_length]

/-- C2 at a buffer of 40 bytes split at index 21. -/
theorem NEON_adler32_incremental_witness :
    ∃ r1 r, NEON_adler32 17 1 (some (sample40.take 21)) 21 = some r1 ∧
      NEON_adler32 17 r1 (some (sample40.drop 21)) (sample40.length - 21) = some r ∧
      NEON_adler32 17 1 (some sample40) sample40.length = some r :=
  NEON_adler32_incremental 1 sample40 21 17 (by decide) (by decide) (by decide)

/-- C3: with a null buffer `NEON_adler32` returns 1, for every seed and every length
(and whatever the fuel: no loop is entered). -/
theorem NEON_adler32_null (fuel s len : Nat) : NEON_adler32 fuel s none len = some 1 := rfl

/-- C4, as stated, fails: with the seed `0xFFF1` (low half 65521) and a non-null buffer of
length 0 the function returns `0xFFF1`, whose low half is not below 65521, while the seed
reduced is 0. -/
theorem NEON_adler32_zero_length_unreduced :
    NEON_adler32 16 0xFFF1 (some []) 0 = some 0xFFF1 ∧
    ¬ (0xFFF1 &&& 0xFFFF < 65521) ∧
    ((((0xFFF1 >>> 16) &&& 0xFFFF) % 65521) <<< 16) ||| ((0xFFF1 &&& 0xFFFF) % 65521) = 0 := by
  decide

/-- C4, amended: with a non-null buffer and length 0, `NEON_adler32` returns
`(B << 16) | A` for `A = s & 0xFFFF`, `B = (s >> 16) & 0xFFFF` without any reduction
modulo 65521, that is the low 32 bits of the seed. -/
theorem NEON_adler32_zero_length (fuel s : Nat) (buf : List Byte) (hf : 0 < fuel) :
    NEON_adler32 fuel s (some buf) 0 =
      some ((((s >>> 16) &&& 0xFFFF) <<< 16) ||| (s &&& 0xFFFF)) ∧
    (((s >>> 16) &&& 0xFFFF) <<< 16) ||| (s &&& 0xFFFF) = s % 2 ^ 32 := by
  obtain ⟨f, rfl⟩ : ∃ f, fuel = f + 1 := ⟨fuel - 1, by omega⟩
  have hloop : adler32_loop buf 0 (f + 1) (loop_init s) = some (loop_init s) := by
    rw [adler32_loop, body_at_end buf 0 _ (Nat.not_lt_zero _)]
  have hr : NEON_adler32 (f + 1) s (some buf) 0 = some (encode (decode s)) := by
    simp only [NEON_adler32, hloop]
    simp only [loop_init, lt_irrefl, if_false]
  have he := encode_decode s
  have hs : (((s >>> 16) &&& 0xFFFF) <<< 16) ||| (s &&& 0xFFFF) = encode (decode s) := by
    have := reference_eq s []
    simpa [adler32_reference, ref_fold] using this
  rw [hr, hs, he]
  exact ⟨rfl, by norm_num [W32]⟩

/-- C4 as amended, at a seed whose two halves are 65521. -/
theorem NEON_adler32_zero_length_witness :
    NEON_adler32 1 0xFFF1FFF1 (some wikipedia) 0 =
      some ((((0xFFF1FFF1 >>> 16) &&& 0xFFFF) <<< 16) ||| (0xFFF1FFF1 &&& 0xFFFF)) ∧
    (((0xFFF1FFF1 >>> 16) &&& 0xFFFF) <<< 16) ||| (0xFFF1FFF1 &&& 0xFFFF) = 0xFFF1FFF1 % 2 ^ 32 :=
  NEON_adler32_zero_length 1 0xFFF1FFF1 wikipedia (by decide)

/-- C5: for a non-null buffer of length `1 ≤ L < 2^32`, both 16-bit halves of the returned
value are below 65521; and the pair a pass of the chunk loop leaves after its reduction step
is below 65521 in both components. -/
theorem NEON_adler32_halves_lt (s : Nat) (b : List Byte) (fuel : Nat) (h1 : 1 ≤ b.length)
    (hL : b.length < 2 ^ 32) (hf : b.length / 5552 + 16 ≤ fuel) :
    (∃ r, NEON_adler32 fuel s (some b) b.length = some r ∧
      r &&& 0xFFFF < 65521 ∧ r >>> 16 < 65521) ∧
    (∀ st st1, adler32_body b b.length st = Flow.next st1 →
      st1.pair.1 < 65521 ∧ st1.pair.2 < 65521) := by
  constructor
  · have hne : b ≠ [] := by
      intro h; rw [h] at h1; simp at h1
    obtain ⟨ha, hb⟩ := ref_fold_lt (decode s) b hne
    refine ⟨encode (ref_fold (decode s) b), ?_, ?_, ?_⟩
    · rw [NEON_adler32_eq fuel s b b.length (Nat.le_refl _) hL hf, List.take_length]
    · rw [encode_eq _ (by omega) (by omega), and_ffff]
      omega
    · rw [encode_eq _ (by omega) (by omega), Nat.shiftRight_eq_div_pow]
      omega
  · intro st st1 h
    simp only [adler32_body] at h
    split at h
    · split at h
      · exact absurd h (by simp)
      · simp only [Flow.next.injEq] at h
        subst h
        simp only [M_BASE]
        omega
    · exact absurd h (by simp)

/-- C5 at a buffer of 40 bytes and the seed `0xFFFFFFFF`. -/
theorem NEON_adler32_halves_lt_witness :
    (∃ r, NEON_adler32 17 0xFFFFFFFF (some sample40) sample40.length = some r ∧
      r &&& 0xFFFF < 65521 ∧ r >>> 16 < 65521) ∧
    (∀ st st1, adler32_body sample40 sample40.length st = Flow.next st1 →
      st1.pair.1 < 65521 ∧ st1.pair.2 < 65521) :=
  NEON_adler32_halves_lt 0xFFFFFFFF sample40 17 (by decide) (by decide) (by decide)

/-- From a pair of 16-bit values no exact sum over at most 5552 bytes exceeds `2^32 - 1`. -/
theorem noWrap_of_le (p : Nat × Nat) (bs : List Byte) (h1 : p.1 ≤ 65535) (h2 : p.2 ≤ 65535)
    (hn : bs.length ≤ 5552) : NoWrap p bs := by
  intro m _
  have hl : (bs.take m).length ≤ 5552 := by
    rw [List.length_take]; omega
  have := seq_sums_lt_W32 p (bs.take m) h1 h2 hl
  simp only [W32] at this
  omega

/-- The states in which a pass of the chunk loop is entered (`len < 2^32`): after `k` full
chunks, or with `i = len` after a last short chunk. -/
theorem loop_state_cases (buf : List Byte) (len : Nat) (hlen : len ≤ buf.length)
    (h32 : len < W32) (s : Nat) : ∀ (k : Nat) (st : LoopState),
    loop_state buf len (loop_init s) k = some st →
      (st = chunk_start (decode s) buf k ∧ 5552 * k ≤ len) ∨ st.i = len := by
  obtain ⟨h1, h2⟩ := wrap32_decode s
  intro k
  induction k with
  | zero =>
    intro st h
    left
    simp only [loop_state, Option.some.injEq] at h
    subst h
    exact ⟨by simp [chunk_start, loop_init, M_NMAX, ref_fold], Nat.zero_le _⟩
  | succ k ih =>
    intro st h
    rw [loop_state] at h
    cases hk : loop_state buf len (loop_init s) k with
    | none => rw [hk] at h; exact absurd h (by simp)
    | some st0 =>
      rw [hk] at h
      dsimp only at h
      rcases ih st0 hk with ⟨rfl, hle⟩ | hend
      · by_cases hlt : 5552 * k < len
        · by_cases hfull : len - 5552 * k < 5552
          · by_cases hsmall : len - 5552 * k < 16
            · rw [body_break buf len h32 _ k hlt hsmall] at h
              exact absurd h (by simp)
            · rw [body_short buf len hlen h32 _ h1 h2 k hle hfull (by omega)] at h
              simp only [Option.some.injEq] at h
              subst h
              right; rfl
          · rw [body_full buf len hlen h32 _ h1 h2 k (by omega)] at h
            simp only [Option.some.injEq] at h
            subst h
            left
            exact ⟨rfl, by omega⟩
        · rw [body_at_end buf len _ (by simpa [chunk_start] using hlt)] at h
          exact absurd h (by simp)
      · rw [body_at_end buf len _ (by omega)] at h
        exact absurd h (by simp)

/-- C6: in every call `NEON_adler32` makes to `NEON_accum32` (the call of a pass of the
chunk loop entered in a state `st`, on `chunk_size / 16` groups at offset `st.i`) and to
`NEON_handle_tail` (on the bytes after `done`), the exact running sums over the natural
numbers stay at most `2^32 - 1` after every byte, and the 32-bit code returns these exact
sums. -/
theorem no_wrap_in_calls (s : Nat) (b : List Byte) (hL : b.length < 2 ^ 32) :
    (∀ k st, loop_state b b.length (loop_init s) k = some st → st.i < b.length →
      16 ≤ chunk_size b.length st →
      16 * (chunk_size b.length st / 16) ≤ 5552 ∧
      st.pair.1 ≤ 65535 ∧ st.pair.2 ≤ 65535 ∧
      NoWrap st.pair ((b.drop st.i).take (16 * (chunk_size b.length st / 16))) ∧
      NEON_accum32 st.pair (b.drop st.i) (chunk_size b.length st / 16) =
        seq_sums st.pair ((b.drop st.i).take (16 * (chunk_size b.length st / 16)))) ∧
    (∀ fuel, b.length / 5552 + 16 ≤ fuel →
      ∃ st, adler32_loop b b.length fuel (loop_init s) = some st ∧
        (st.done < b.length →
          b.length - st.done ≤ 15 ∧
          NoWrap st.pair ((b.drop st.done).take (b.length - st.done)) ∧
          NEON_handle_tail fuel st.pair (b.drop st.done) (b.length - st.done) =
            some (seq_sums st.pair ((b.drop st.done).take (b.length - st.done))))) := by
  have h32 : b.length < W32 := hL
  have h32n : b.length < 4294967296 := hL
  obtain ⟨h1, h2⟩ := wrap32_decode s
  constructor
  · intro k st hst hi hcs
    rcases loop_state_cases b b.length (Nat.le_refl _) h32 s k st hst with ⟨rfl, hle⟩ | hend
    · obtain ⟨hp1, hp2⟩ := ref_fold_le (decode s) (b.take (5552 * k)) h1 h2
      have hdl : (b.drop (5552 * k)).length = b.length - 5552 * k := List.length_drop _ _
      have hc : chunk_size b.length (chunk_start (decode s) b k) ≤ 5552 ∧
          chunk_size b.length (chunk_start (decode s) b k) ≤ b.length - 5552 * k := by
        simp only [chunk_size, chunk_start, W32]
        split <;> omega
      have hg : 16 * (chunk_size b.length (chunk_start (decode s) b k) / 16) ≤ 5552 := by omega
      refine ⟨hg, hp1, hp2, ?_, ?_⟩
      · apply noWrap_of_le _ _ hp1 hp2
        rw [List.length_take]; omega
      · exact accum32_exact _ hp1 hp2 _ _ hg (by simp only [chunk_start] at *; omega)
    · omega
  · intro fuel hf
    obtain ⟨st, hst, hdone, hpair⟩ :=
      adler32_loop_spec b b.length (Nat.le_refl _) h32 (decode s) h1 h2 fuel 0 (by omega)
        (by omega)
    have hinit : chunk_start (decode s) b 0 = loop_init s := by
      simp [chunk_start, loop_init, M_NMAX, ref_fold]
    rw [hinit] at hst
    refine ⟨st, hst, ?_⟩
    intro hd
    obtain ⟨hp1, hp2⟩ := ref_fold_le (decode s) (b.take st.done) h1 h2
    rw [← hpair] at hp1 hp2
    have hdl : (b.drop st.done).length = b.length - st.done := List.length_drop _ _
    refine ⟨by omega, ?_, ?_⟩
    · apply noWrap_of_le _ _ hp1 hp2
      rw [List.length_take]; omega
    · exact handle_tail_exact fuel st.pair hp1 hp2 _ _ (by omega) (by omega) (by omega)

/-- C6 at a buffer of 40 bytes and the seed `0xFFFFFFFF`. -/
theorem no_wrap_in_calls_witness :
    (∀ k st, loop_state sample40 sample40.length (loop_init 0xFFFFFFFF) k = some st →
      st.i < sample40.length → 16 ≤ chunk_size sample40.length st →
      16 * (chunk_size sample40.length st / 16) ≤ 5552 ∧ st.pair.1 ≤ 65535 ∧
      st.pair.2 ≤ 65535 ∧
      NoWrap st.pair ((sample40.drop st.i).take (16 * (chunk_size sample40.length st / 16))) ∧
      NEON_accum32 st.pair (sample40.drop st.i) (chunk_size sample40.length st / 16) =
        seq_sums st.pair
          ((sample40.drop st.i).take (16 * (chunk_size sample40.length st / 16)))) ∧
    (∀ fuel, sample40.length / 5552 + 16 ≤ fuel →
      ∃ st, adler32_loop sample40 sample40.length fuel (loop_init 0xFFFFFFFF) = some st ∧
        (st.done < sample40.length →
          sample40.length - st.done ≤ 15 ∧
          NoWrap st.pair ((sample40.drop st.done).take (sample40.length - st.done)) ∧
          NEON_handle_tail fuel st.pair (sample40.drop st.done) (sample40.length - st.done) =
            some (seq_sums st.pair
              ((sample40.drop st.done).take (sample40.length - st.done))))) :=
  no_wrap_in_calls 0xFFFFFFFF sample40 (by decide)

/-- C7: `decode` and `encode` are the bit operations of the source, they are inverse to each
other on pairs of 16-bit values and on 32-bit values, and the value `NEON_adler32` returns has
the final `B` sum in its high 16 bits and the final `A` sum in its low 16 bits. -/
theorem encode_decode_lossless :
    (∀ v, decode v = (v &&& 0xFFFF, (v >>> 16) &&& 0xFFFF)) ∧
    (∀ A B, B < 65536 → encode (A, B) = (B <<< 16) ||| A) ∧
    (∀ A B, A < 65536 → B < 65536 → decode (encode (A, B)) = (A, B)) ∧
    (∀ v, v < 2 ^ 32 → encode (decode v) = v) ∧
    (∀ s b fuel, List.length b < 2 ^ 32 → List.length b / 5552 + 16 ≤ fuel →
      ∃ pair, NEON_adler32 fuel s (some b) b.length = some (encode pair) ∧
        pair = ref_fold (decode s) b ∧
        encode pair >>> 16 = pair.2 ∧ encode pair &&& 0xFFFF = pair.1) := by
  refine ⟨?_, ?_, ?_, ?_, ?_⟩
  · intro v
    rw [decode_eq, and_ffff, and_ffff, Nat.shiftRight_eq_div_pow]
  · intro A B hB
    have hsh : (B <<< 16) % W32 = B <<< 16 := by
      rw [Nat.shiftLeft_eq]
      simp only [W32]
      omega
    rw [encode, hsh]
  · intro A B hA hB
    exact decode_encode (A, B) hA hB
  · intro v hv
    rw [encode_decode]
    exact Nat.mod_eq_of_lt hv
  · intro s b fuel hL hf
    obtain ⟨h1, h2⟩ := wrap32_decode s
    obtain ⟨hp1, hp2⟩ := ref_fold_le (decode s) b h1 h2
    refine ⟨ref_fold (decode s) b, ?_, rfl, ?_, ?_⟩
    · rw [NEON_adler32_eq fuel s b b.length (Nat.le_refl _) hL hf, List.take_length]
    · rw [encode_eq _ (by omega) (by omega), Nat.shiftRight_eq_div_pow]
      omega
    · rw [encode_eq _ (by omega) (by omega), and_ffff]
      omega

/-- C7 at the pair `(0xFFF1, 0xABCD)`, the value `0xDEADBEEF` and a buffer of 40 bytes. -/
theorem encode_decode_lossless_witness :
    decode (encode (0xFFF1, 0xABCD)) = (0xFFF1, 0xABCD) ∧
    encode (decode 0xDEADBEEF) = 0xDEADBEEF ∧
    (∃ pair, NEON_adler32 17 1 (some sample40) sample40.length = some (encode pair) ∧
        pair = ref_fold (decode 1) sample40 ∧
        encode pair >>> 16 = pair.2 ∧ encode pair &&& 0xFFFF = pair.1) :=
  ⟨encode_decode_lossless.2.2.1 0xFFF1 0xABCD (by decide) (by decide),
   encode_decode_lossless.2.2.2.1 0xDEADBEEF (by decide),
   encode_decode_lossless.2.2.2.2 1 sample40 17 (by decide) (by decide)⟩

/-- C8: with seed 1 the checksum of the 9 ASCII bytes of the word Wikipedia
(`57 69 6B 69 70 65 64 69 61` in hexadecimal) is `0x11E60398`. -/
theorem NEON_adler32_wikipedia (fuel : Nat) (hf : 16 ≤ fuel) :
    NEON_adler32 fuel 1 (some wikipedia) 9 = some 0x11E60398 := by
  have h := NEON_adler32_eq fuel 1 wikipedia 9 (by decide) (by decide) (by omega)
  have hr : adler32_reference 1 wikipedia = 0x11E60398 := by decide
  rw [h, ← hr, reference_eq]
  rfl

/-- C8 with fuel 16. -/
theorem NEON_adler32_wikipedia_witness :
    NEON_adler32 16 1 (some wikipedia) 9 = some 0x11E60398 :=
  NEON_adler32_wikipedia 16 (by decide)

/-- With `len = 2^32` the chunk loop is never left from a state where `i` and `n` are
multiples of 16 and `n` is at least 16. -/
theorem adler32_loop_never_left (buf : List Byte) : ∀ (fuel : Nat) (st : LoopState),
    16 ∣ st.i → st.i < 4294967296 → 16 ≤ st.n → 16 ∣ st.n → st.n < 4294967296 →
    adler32_loop buf 4294967296 fuel st = none := by
  intro fuel
  induction fuel with
  | zero => intro st _ _ _ _ _; rfl
  | succ fuel ih =>
    intro st hi hlt hn hdn hn32
    have hc : 16 ≤ chunk_size 4294967296 st ∧ 16 ∣ chunk_size 4294967296 st ∧
        chunk_size 4294967296 st < 4294967296 := by
      simp only [chunk_size, W32]
      split <;> omega
    rw [adler32_loop]
    simp only [adler32_body, if_pos hlt, if_neg (show ¬ chunk_size 4294967296 st < 16 by omega)]
    apply ih
    · show 16 ∣ (st.i + chunk_size 4294967296 st) % W32
      simp only [W32]; omega
    · show (st.i + chunk_size 4294967296 st) % W32 < 4294967296
      simp only [W32]; omega
    · exact hc.1
    · exact hc.2.1
    · exact hc.2.2

/-- C9, at the length `2^32` (a `z_size_t` of 64 bits) on a buffer of `2^32` bytes: the
chunk loop of `NEON_adler32` is never left, whatever the number of passes allowed, so the
function does not return. -/
theorem NEON_adler32_never_returns_at_4GiB (fuel : Nat) :
    NEON_adler32 fuel 1 (some zeros4GiB) 4294967296 = none := by
  have h := adler32_loop_never_left zeros4GiB fuel (loop_init 1) (by decide) (by decide)
    (by decide) (by decide) (by decide)
  simp only [NEON_adler32, h]

/-- Where the counter of `NEON_handle_tail` covers the length: for every starting pair of
32-bit values, every group count `g` with `16 * g < 2^32` and every buffer of `16 * g`
bytes, `NEON_handle_tail` over the `16 * g` bytes returns exactly the pair `NEON_accum32`
returns for `g` groups, the sequential sums `A += byte; B += A` modulo `2^32`, with no
reduction modulo 65521; for `g = 0` the pair is unchanged. -/
theorem NEON_accum32_eq_handle_tail (A B g fuel : Nat) (buf : List Byte) (hA : A < 2 ^ 32)
    (hB : B < 2 ^ 32) (hg : 16 * g < 2 ^ 32) (hbuf : buf.length = 16 * g)
    (hf : 16 * g < fuel) :
    NEON_handle_tail fuel (A, B) buf (16 * g) = some (NEON_accum32 (A, B) buf g) ∧
    NEON_accum32 (A, B) buf g =
      ((seq_sums (A, B) buf).1 % 2 ^ 32, (seq_sums (A, B) buf).2 % 2 ^ 32) ∧
    (g = 0 → NEON_accum32 (A, B) buf g = (A, B)) := by
  have hacc := NEON_accum32_eq (A, B) buf g (by omega)
  have hw : wrap32 (A, B) = (A, B) := wrap32_of_lt (A, B) hA hB
  have ht := NEON_handle_tail_eq fuel (A, B) buf (16 * g) (by omega) hg hf
  rw [hw] at ht
  have htake : buf.take (16 * g) = buf := by rw [← hbuf, List.take_length]
  rw [htake] at hacc ht
  refine ⟨?_, ?_, ?_⟩
  · rw [ht, hacc]; rfl
  · rw [hacc]; rfl
  · intro h0
    subst h0
    have : buf = [] := List.length_eq_zero.mp (by simpa using hbuf)
    subst this
    rw [hacc]
    exact hw

/-- The agreement of `NEON_handle_tail` and `NEON_accum32` at three groups of 16 bytes and
a starting pair near `2^32`. -/
theorem NEON_accum32_eq_handle_tail_witness :
    NEON_handle_tail 49 (0xFFFFFFFF, 0xFFFFFFF0) sample48 (16 * 3) =
      some (NEON_accum32 (0xFFFFFFFF, 0xFFFFFFF0) sample48 3) ∧
    NEON_accum32 (0xFFFFFFFF, 0xFFFFFFF0) sample48 3 =
      ((seq_sums (0xFFFFFFFF, 0xFFFFFFF0) sample48).1 % 2 ^ 32,
       (seq_sums (0xFFFFFFFF, 0xFFFFFFF0) sample48).2 % 2 ^ 32) ∧
    (3 = 0 → NEON_accum32 (0xFFFFFFFF, 0xFFFFFFF0) sample48 3 = (0xFFFFFFFF, 0xFFFFFFF0)) :=
  NEON_accum32_eq_handle_tail 0xFFFFFFFF 0xFFFFFFF0 3 49 sample48 (by decide) (by decide)
    (by decide) (by decide) (by decide)

/-- A read through an advanced pointer. -/
theorem ld_drop (p : List Byte) (m k : Nat) : ld (p.drop m) k = ld p (m + k) := by
  simp only [ld, List.get?_eq_getElem?, List.getElem?_drop]

/-- The weight at offset `k` of the table is `32 - k`. -/
theorem ld_taps (k : Nat) (h : k < 32) : ld taps k = 32 - k := by
  interval_cases k <;> rfl

/-- The weight at offset `k` of the second half of the table is `16 - k`. -/
theorem ld_taps_hi (k : Nat) (h : k < 16) : ld (taps.drop 16) k = 16 - k := by
  interval_cases k <;> rfl

/-- The sum of the bytes of a loaded register, as a sum over the offsets. -/
theorem bsum16_eq (buf : List Byte) :
    bsum16 (vld1q_u8 buf) = Finset.sum (Finset.range 16) (fun k => ld buf k) := by
  simp only [bsum16, vld1q_u8, Finset.sum_range_succ, Finset.sum_range_zero]
  omega

/-- The weighted sum of the bytes of a loaded register, as a sum over the offsets with the
weights read from the second half of the table. -/
theorem wsum16_eq (buf : List Byte) :
    wsum16 (vld1q_u8 buf) =
      Finset.sum (Finset.range 16) (fun k => ld (taps.drop 16) k * ld buf k) := by
  have ht : ∀ k, k < 16 → ld (taps.drop 16) k = 16 - k := ld_taps_hi
  simp only [wsum16, vld1q_u8, Finset.sum_range_succ, Finset.sum_range_zero]
  rw [ht 0 (by omega), ht 1 (by omega), ht 2 (by omega), ht 3 (by omega), ht 4 (by omega),
    ht 5 (by omega), ht 6 (by omega), ht 7 (by omega), ht 8 (by omega), ht 9 (by omega),
    ht 10 (by omega), ht 11 (by omega), ht 12 (by omega), ht 13 (by omega), ht 14 (by omega),
    ht 15 (by omega)]
  omega

/-- C12: for every group count `g` the loops of `NEON_accum32` are `g / 2` passes of the
32-byte loop followed by `g % 2` passes of the 16-byte loop, which is no pass or exactly one
group; that group of 16 bytes gives `A + sum b_k` and `B + 16 * A + sum (16 - k) * b_k`
modulo `2^32`, with the weights of the second half of the table. -/
theorem NEON_accum32_groups (g : Nat) (A B : Nat) (buf : List Byte) (h : 16 ≤ buf.length) :
    (∀ (p : List Byte) (adacc s2acc : U32x4),
      accum32_loop32 g p adacc s2acc =
        accum32_loop16 (g % 2) (p.drop (32 * (g / 2)))
          (iter_group32 (g / 2) p adacc s2acc).1 (iter_group32 (g / 2) p adacc s2acc).2) ∧
    g % 2 ≤ 1 ∧
    (∀ (p : List Byte) (adacc s2acc : U32x4),
      accum32_loop16 0 p adacc s2acc = (adacc, s2acc) ∧
      accum32_loop16 1 p adacc s2acc = accum32_group16 p adacc s2acc) ∧
    NEON_accum32 (A, B) buf 1 =
      ((A + Finset.sum (Finset.range 16) (fun k => ld buf k)) % 2 ^ 32,
       (B + 16 * A + Finset.sum (Finset.range 16) (fun k => ld (taps.drop 16) k * ld buf k))
          % 2 ^ 32) ∧
    (∀ k, k < 16 →
      ld (taps.drop 16) k = 16 - k ∧ ld (taps.drop 16) k = ld taps (16 + k)) := by
  refine ⟨?_, by omega, ?_, ?_, ?_⟩
  · induction g using Nat.strong_induction_on with
    | _ g ih =>
      intro p adacc s2acc
      match g, ih with
      | 0, _ => rfl
      | 1, _ => rfl
      | g + 2, ih =>
        have h1 : (g + 2) / 2 = g / 2 + 1 := by omega
        have h2 : (g + 2) % 2 = g % 2 := by omega
        rw [accum32_loop32, h1, h2, iter_group32, ih g (by omega), List.drop_drop]
        congr 2
        omega
  · intro p adacc s2acc
    exact ⟨rfl, rfl⟩
  · have h1 := NEON_accum32_eq (A, B) buf 1 (by omega)
    rw [h1, seq_sums_take16 (A, B) buf h, bsum16_eq, wsum16_eq]
    rfl
  · intro k hk
    refine ⟨ld_taps_hi k hk, ?_⟩
    rw [ld_drop]

/-- C12 at the group count 3 and the 48 bytes of `sample48`. -/
theorem NEON_accum32_groups_witness :
    16 ≤ sample48.length ∧
    (∀ (p : List Byte) (adacc s2acc : U32x4),
      accum32_loop32 3 p adacc s2acc =
        accum32_loop16 (3 % 2) (p.drop (32 * (3 / 2)))
          (iter_group32 (3 / 2) p adacc s2acc).1 (iter_group32 (3 / 2) p adacc s2acc).2) ∧
    NEON_accum32 (1, 2) sample48 1 =
      ((1 + Finset.sum (Finset.range 16) (fun k => ld sample48 k)) % 2 ^ 32,
       (2 + 16 * 1 +
          Finset.sum (Finset.range 16) (fun k => ld (taps.drop 16) k * ld sample48 k))
          % 2 ^ 32) :=
  ⟨by decide, (NEON_accum32_groups 3 1 2 sample48 (by decide)).1,
    (NEON_accum32_groups 3 1 2 sample48 (by decide)).2.2.2.1⟩

/-- C11: one group of 32 bytes (`NEON_accum32` with group count 2) from the scalars `(A, B)`
gives `A + sum b_k` and `B + 32 * A + sum taps[k] * b_k` modulo `2^32`, where `A` is the
value before the bytes of the group are added and `taps[k] = 32 - k`. -/
theorem NEON_accum32_group32 (A B : Nat) (buf : List Byte) (h : 32 ≤ buf.length) :
    NEON_accum32 (A, B) buf 2 =
      ((A + Finset.sum (Finset.range 32) (fun k => ld buf k)) % 2 ^ 32,
       (B + 32 * A + Finset.sum (Finset.range 32) (fun k => ld taps k * ld buf k)) % 2 ^ 32) ∧
    (∀ k, k < 32 → ld taps k = 32 - k) := by
  refine ⟨?_, ld_taps⟩
  have hd : 16 ≤ (buf.drop 16).length := by rw [List.length_drop]; omega
  have h1 := NEON_accum32_eq (A, B) buf 2 (by omega)
  have ht : ∀ k, k < 32 → ld taps k = 32 - k := ld_taps
  rw [h1, show 16 * 2 = 16 + 16 from rfl, seq_sums_take_add, seq_sums_take16 (A, B) buf (by omega),
    seq_sums_take16 _ _ hd]
  simp only [bsum16, wsum16, vld1q_u8, ld_drop, Finset.sum_range_succ, Finset.sum_range_zero,
    Prod.mk.injEq, Nat.reduceAdd, Nat.reducePow]
  rw [ht 0 (by omega), ht 1 (by omega), ht 2 (by omega), ht 3 (by omega), ht 4 (by omega),
    ht 5 (by omega), ht 6 (by omega), ht 7 (by omega), ht 8 (by omega), ht 9 (by omega),
    ht 10 (by omega), ht 11 (by omega), ht 12 (by omega), ht 13 (by omega), ht 14 (by omega),
    ht 15 (by omega), ht 16 (by omega), ht 17 (by omega), ht 18 (by omega), ht 19 (by omega),
    ht 20 (by omega), ht 21 (by omega), ht 22 (by omega), ht 23 (by omega), ht 24 (by omega),
    ht 25 (by omega), ht 26 (by omega), ht 27 (by omega), ht 28 (by omega), ht 29 (by omega),
    ht 30 (by omega), ht 31 (by omega)]
  constructor <;> congr 1 <;> omega

/-- C11 at the first 32 bytes of `sample40` and a starting pair near `2^32`. -/
theorem NEON_accum32_group32_witness :
    32 ≤ sample40.length ∧
    NEON_accum32 (0xFFFFFFFF, 0xFFFFFF00) sample40 2 =
      ((0xFFFFFFFF + Finset.sum (Finset.range 32) (fun k => ld sample40 k)) % 2 ^ 32,
       (0xFFFFFF00 + 32 * 0xFFFFFFFF +
          Finset.sum (Finset.range 32) (fun k => ld taps k * ld sample40 k)) % 2 ^ 32) :=
  ⟨by decide, (NEON_accum32_group32 0xFFFFFFFF 0xFFFFFF00 sample40 (by decide)).1⟩

/-- One load reads 16 consecutive offsets. -/
theorem vld1q_u8_reads_eq (off : Nat) : vld1q_u8_reads off = List.range' off 16 := by
  simp [vld1q_u8_reads, List.range']

/-- The second loop of `NEON_accum32` over `n` groups loads `16 * n` consecutive offsets. -/
theorem accum32_loop16_reads_eq (n : Nat) : ∀ off,
    accum32_loop16_reads n off = List.range' off (16 * n) := by
  induction n with
  | zero => intro off; rfl
  | succ n ih =>
    intro off
    rw [accum32_loop16_reads, ih, vld1q_u8_reads_eq, List.range'_append_1,
      show 16 * (n + 1) = 16 * n + 16 by omega]

/-- The loops of `NEON_accum32` over `n` groups load `16 * n` consecutive offsets. -/
theorem accum32_loop32_reads_eq (n : Nat) : ∀ off,
    accum32_loop32_reads n off = List.range' off (16 * n) := by
  induction n using Nat.strong_induction_on with
  | _ n ih =>
    intro off
    match n, ih with
    | 0, _ => exact accum32_loop16_reads_eq 0 off
    | 1, _ => exact accum32_loop16_reads_eq 1 off
    | n + 2, ih =>
      rw [accum32_loop32_reads, ih n (by omega), vld1q_u8_reads_eq, vld1q_u8_reads_eq,
        List.range'_append_1, List.range'_append_1,
        show 16 * (n + 2) = 16 * n + (16 + 16) by omega]

/-- `NEON_accum32` over `g` groups loads the offsets `0` to `16 * g - 1`. -/
theorem NEON_accum32_reads_eq (g : Nat) : NEON_accum32_reads g = List.range' 0 (16 * g) :=
  accum32_loop32_reads_eq g 0

/-- Every index the loop of `NEON_handle_tail` reads is below `len`. -/
theorem handle_tail_reads_lt (len : Nat) : ∀ (fuel i j : Nat),
    j ∈ handle_tail_reads len fuel i → j < len := by
  intro fuel
  induction fuel with
  | zero => intro i j h; simp [handle_tail_reads] at h
  | succ fuel ih =>
    intro i j h
    rw [handle_tail_reads] at h
    split at h
    · rcases List.mem_cons.mp h with rfl | h2
      · assumption
      · exact ih _ _ h2
    · simp at h

/-- The chunk size of a pass entered after `k` full chunks. -/
theorem chunk_size_start (p0 : Nat × Nat) (buf : List Byte) (len k : Nat)
    (h32 : len < W32) : chunk_size len (chunk_start p0 buf k) = min 5552 (len - 5552 * k) := by
  have h32n : len < 4294967296 := h32
  simp only [chunk_size, chunk_start, W32]
  split <;> omega

/-- For `len < 2^32` the chunk loop is left with `i = len` or by `break`, and the bytes its
passes hand to `NEON_accum32` are the bytes from `5552 * k` up to `len - len % 16`. -/
theorem adler32_loop_run (buf : List Byte) (len : Nat) (hlen : len ≤ buf.length)
    (h32 : len < W32) (p0 : Nat × Nat) (h1 : p0.1 ≤ 65535) (h2 : p0.2 ≤ 65535) :
    ∀ (fuel k : Nat), 5552 * k ≤ len → (len - 5552 * k) / 5552 + 2 ≤ fuel →
      ∃ st, adler32_loop buf len fuel (chunk_start p0 buf k) = some st ∧
        (st.i = len ∨ (st.i < len ∧ st.n < 16)) ∧
        loop_consumed buf len fuel (chunk_start p0 buf k) =
          (buf.drop (5552 * k)).take (len - len % 16 - 5552 * k) := by
  intro fuel
  induction fuel with
  | zero => intro k _ h; omega
  | succ fuel ih =>
    intro k hk hf
    have hcs := chunk_size_start p0 buf len k h32
    rw [adler32_loop, loop_consumed]
    by_cases hlt : 5552 * k < len
    · by_cases hfull : len - 5552 * k < 5552
      · by_cases hsmall : len - 5552 * k < 16
        · rw [body_break buf len h32 p0 k hlt hsmall]
          refine ⟨_, rfl, Or.inr ⟨hlt, hsmall⟩, ?_⟩
          have : len - len % 16 - 5552 * k = 0 := by omega
          simp only [this, List.take_zero]
        · obtain ⟨f, rfl⟩ : ∃ f, fuel = f + 1 := ⟨fuel - 1, by omega⟩
          have hend : ∀ st : LoopState, st.i = len →
              adler32_loop buf len (f + 1) st = some st ∧
              loop_consumed buf len (f + 1) st = [] := by
            intro st hst
            rw [adler32_loop, loop_consumed, body_at_end buf len st (by omega)]
            exact ⟨rfl, rfl⟩
          obtain ⟨he1, he2⟩ := hend (LoopState.mk len (len - 5552 * k) (len - len % 16)
            (ref_fold p0 (buf.take (len - len % 16)))) rfl
          rw [body_short buf len hlen h32 p0 h1 h2 k hk hfull (by omega)]
          refine ⟨_, he1, Or.inl rfl, ?_⟩
          simp only [he2, List.append_nil, hcs]
          rw [show (chunk_start p0 buf k).i = 5552 * k from rfl]
          congr 1
          omega
      · rw [body_full buf len hlen h32 p0 h1 h2 k (by omega)]
        obtain ⟨st, hst, hex, hcons⟩ := ih (k + 1) (by omega) (by omega)
        refine ⟨st, hst, hex, ?_⟩
        simp only [hcons, hcs]
        have e1 : min 5552 (len - 5552 * k) = 5552 := by omega
        have e2 : len - len % 16 - 5552 * k = 5552 + (len - len % 16 - 5552 * (k + 1)) := by omega
        have e3 : (chunk_start p0 buf k).i = 5552 * k := rfl
        rw [e1, e2, e3, List.take_add, List.drop_drop,
          show 16 * (5552 / 16) = 5552 by norm_num,
          show 5552 * k + 5552 = 5552 * (k + 1) by omega]
    · rw [body_at_end buf len _ hlt]
      refine ⟨_, rfl, Or.inl (by show 5552 * k = len; omega), ?_⟩
      have : len - len % 16 - 5552 * k = 0 := by omega
      simp only [this, List.take_zero]

/-- The loop is entered in the state after 0 full chunks. -/
theorem chunk_start_zero (s : Nat) (buf : List Byte) :
    chunk_start (decode s) buf 0 = loop_init s := by
  simp [chunk_start, loop_init, M_NMAX, ref_fold]

/-- The state in which the chunk loop is left, for a buffer below `2^32` bytes. -/
theorem adler32_loop_final (s : Nat) (b : List Byte) (fuel : Nat) (h32 : b.length < W32)
    (hf : b.length / 5552 + 2 ≤ fuel) :
    ∃ st, adler32_loop b b.length fuel (loop_init s) = some st ∧
      st.done = b.length - b.length % 16 ∧
      st.pair = ref_fold (decode s) (b.take st.done) ∧
      (st.i = b.length ∨ (st.i < b.length ∧ st.n < 16)) ∧
      loop_consumed b b.length fuel (loop_init s) = b.take (b.length - b.length % 16) := by
  obtain ⟨h1, h2⟩ := wrap32_decode s
  obtain ⟨st, hst, hdone, hpair⟩ :=
    adler32_loop_spec b b.length (Nat.le_refl _) h32 (decode s) h1 h2 fuel 0 (by omega)
      (by omega)
  obtain ⟨st2, hst2, hex, hcons⟩ :=
    adler32_loop_run b b.length (Nat.le_refl _) h32 (decode s) h1 h2 fuel 0 (by omega)
      (by omega)
  rw [chunk_start_zero] at hst hst2 hcons
  rw [hst] at hst2
  obtain rfl := Option.some.inj hst2
  refine ⟨st, hst, hdone, hpair, hex, ?_⟩
  rw [hcons]
  simp

/-- C13: for `L <= 2^32 - 1`, in every pass of the chunk loop that is entered with `i < L`
the chunk size is `min(5552, L - i)`, the conversion of `L - i` to `unsigned int` and the
step `i += n` do not wrap and `i + n <= L`; and the loop is left with `i = L` or by the
break on `n < 16`. -/
theorem chunk_size_no_wrap (s : Nat) (b : List Byte) (hL : b.length ≤ 2 ^ 32 - 1) :
    (∀ k st, loop_state b b.length (loop_init s) k = some st → st.i < b.length →
      chunk_size b.length st = min 5552 (b.length - st.i) ∧
      (b.length - st.i) % 2 ^ 32 = b.length - st.i ∧
      st.i + chunk_size b.length st ≤ b.length ∧
      (st.i + chunk_size b.length st) % 2 ^ 32 = st.i + chunk_size b.length st) ∧
    (∀ fuel, b.length / 5552 + 2 ≤ fuel →
      ∃ st, adler32_loop b b.length fuel (loop_init s) = some st ∧
        (st.i = b.length ∨ (st.i < b.length ∧ st.n < 16))) := by
  have h32n : b.length < 4294967296 := by omega
  have h32 : b.length < W32 := h32n
  constructor
  · intro k st hst hi
    rcases loop_state_cases b b.length (Nat.le_refl _) h32 s k st hst with ⟨rfl, hle⟩ | hend
    · have hcs := chunk_size_start (decode s) b b.length k h32
      have hi2 : (chunk_start (decode s) b k).i = 5552 * k := rfl
      rw [hi2] at hi ⊢
      rw [hcs]
      omega
    · omega
  · intro fuel hf
    obtain ⟨st, hst, _, _, hex, _⟩ := adler32_loop_final s b fuel h32 hf
    exact ⟨st, hst, hex⟩

/-- C13 at a buffer of 40 bytes. -/
theorem chunk_size_no_wrap_witness :
    sample40.length ≤ 2 ^ 32 - 1 ∧
    (∀ k st, loop_state sample40 sample40.length (loop_init 1) k = some st →
      st.i < sample40.length →
      chunk_size sample40.length st = min 5552 (sample40.length - st.i) ∧
      (sample40.length - st.i) % 2 ^ 32 = sample40.length - st.i ∧
      st.i + chunk_size sample40.length st ≤ sample40.length ∧
      (st.i + chunk_size sample40.length st) % 2 ^ 32 =
        st.i + chunk_size sample40.length st) ∧
    (∀ fuel, sample40.length / 5552 + 2 ≤ fuel →
      ∃ st, adler32_loop sample40 sample40.length fuel (loop_init 1) = some st ∧
        (st.i = sample40.length ∨ (st.i < sample40.length ∧ st.n < 16))) :=
  ⟨by decide, chunk_size_no_wrap 1 sample40 (by decide)⟩

/-- The body of a group of 32 bytes, on the registers it loads. -/
theorem group32_step_eq (buf : List Byte) (adacc s2acc : U32x4) :
    group32_step (vld1q_u8 buf) (vld1q_u8 (buf.drop 16)) adacc s2acc =
      accum32_group32 buf adacc s2acc := rfl

/-- The body of a group of 16 bytes, on the register it loads. -/
theorem group16_step_eq (buf : List Byte) (adacc s2acc : U32x4) :
    group16_step (vld1q_u8 buf) adacc s2acc = accum32_group16 buf adacc s2acc := rfl

/-- A checked read succeeds exactly inside the buffer. -/
theorem ld_chk_isSome (p : List Byte) (k : Nat) : (ld_chk p k).isSome = true ↔ k < p.length := by
  unfold ld_chk
  by_cases h : k < p.length
  · simp [List.get?_eq_getElem?, List.getElem?_eq_getElem h, h]
  · simp [List.get?_eq_getElem?, List.getElem?_eq_none (Nat.le_of_not_lt h), h]

/-- Inside the buffer a checked read gives the byte the model reads. -/
theorem ld_chk_eq (p : List Byte) (k : Nat) (h : k < p.length) : ld_chk p k = some (ld p k) := by
  simp [ld_chk, ld, List.get?_eq_getElem?, List.getElem?_eq_getElem h]

/-- A checked load of 16 bytes succeeds when the buffer has 16 bytes. -/
theorem vld1q_u8_chk_of_le (p : List Byte) (h : 16 ≤ p.length) :
    vld1q_u8_chk p = some (vld1q_u8 p) := by
  rw [vld1q_u8_chk, if_pos]
  rw [List.all_eq_true]
  intro k hk
  rw [vld1q_u8_reads_eq, List.mem_range'_1] at hk
  rw [ld_chk_isSome]
  omega

/-- A checked load of 16 bytes fails when the buffer has fewer than 16 bytes. -/
theorem vld1q_u8_chk_of_lt (p : List Byte) (h : p.length < 16) : vld1q_u8_chk p = none := by
  rw [vld1q_u8_chk, if_neg]
  rw [List.all_eq_true]
  intro hall
  have := hall 15 (by rw [vld1q_u8_reads_eq, List.mem_range'_1]; omega)
  rw [ld_chk_isSome] at this
  omega

/-- A checked group of 32 bytes succeeds when the buffer has 32 bytes. -/
theorem accum32_group32_chk_of_le (buf : List Byte) (adacc s2acc : U32x4)
    (h : 32 ≤ buf.length) :
    accum32_group32_chk buf adacc s2acc = some (accum32_group32 buf adacc s2acc) := by
  have hd : 16 ≤ (buf.drop 16).length := by rw [List.length_drop]; omega
  simp only [accum32_group32_chk, vld1q_u8_chk_of_le buf (by omega), vld1q_u8_chk_of_le _ hd,
    group32_step_eq]

/-- A checked group of 32 bytes fails when the buffer has fewer than 32 bytes. -/
theorem accum32_group32_chk_of_lt (buf : List Byte) (adacc s2acc : U32x4)
    (h : buf.length < 32) : accum32_group32_chk buf adacc s2acc = none := by
  by_cases h16 : buf.length < 16
  · simp only [accum32_group32_chk, vld1q_u8_chk_of_lt buf h16]
  · have hd : (buf.drop 16).length < 16 := by rw [List.length_drop]; omega
    simp only [accum32_group32_chk, vld1q_u8_chk_of_le buf (by omega), vld1q_u8_chk_of_lt _ hd]

/-- A checked group of 16 bytes succeeds when the buffer has 16 bytes. -/
theorem accum32_group16_chk_of_le (buf : List Byte) (adacc s2acc : U32x4)
    (h : 16 ≤ buf.length) :
    accum32_group16_chk buf adacc s2acc = some (accum32_group16 buf adacc s2acc) := by
  simp only [accum32_group16_chk, vld1q_u8_chk_of_le buf h, group16_step_eq]

/-- A checked group of 16 bytes fails when the buffer has fewer than 16 bytes. -/
theorem accum32_group16_chk_of_lt (buf : List Byte) (adacc s2acc : U32x4)
    (h : buf.length < 16) : accum32_group16_chk buf adacc s2acc = none := by
  simp only [accum32_group16_chk, vld1q_u8_chk_of_lt buf h]

/-- The checked second loop over `n` groups succeeds exactly when the buffer has `16 * n`
bytes. -/
theorem accum32_loop16_chk_eq (n : Nat) : ∀ (buf : List Byte) (adacc s2acc : U32x4),
    accum32_loop16_chk n buf adacc s2acc =
      if 16 * n ≤ buf.length then some (accum32_loop16 n buf adacc s2acc) else none := by
  induction n with
  | zero => intro buf adacc s2acc; simp [accum32_loop16_chk, accum32_loop16]
  | succ n ih =>
    intro buf adacc s2acc
    rw [accum32_loop16_chk, accum32_loop16]
    by_cases h16 : 16 ≤ buf.length
    · rw [accum32_group16_chk_of_le buf adacc s2acc h16]
      simp only [ih, List.length_drop]
      by_cases h : 16 * (n + 1) ≤ buf.length
      · rw [if_pos h, if_pos (by omega)]
      · rw [if_neg h, if_neg (by omega)]
    · rw [accum32_group16_chk_of_lt buf adacc s2acc (by omega), if_neg (by omega)]

/-- The checked loops over `n` groups succeed exactly when the buffer has `16 * n` bytes. -/
theorem accum32_loop32_chk_eq (n : Nat) : ∀ (buf : List Byte) (adacc s2acc : U32x4),
    accum32_loop32_chk n buf adacc s2acc =
      if 16 * n ≤ buf.length then some (accum32_loop32 n buf adacc s2acc) else none := by
  induction n using Nat.strong_induction_on with
  | _ n ih =>
    intro buf adacc s2acc
    match n, ih with
    | 0, _ => exact accum32_loop16_chk_eq 0 buf adacc s2acc
    | 1, _ => exact accum32_loop16_chk_eq 1 buf adacc s2acc
    | n + 2, ih =>
      rw [accum32_loop32_chk, accum32_loop32]
      by_cases h32 : 32 ≤ buf.length
      · rw [accum32_group32_chk_of_le buf adacc s2acc h32]
        simp only [ih n (by omega), List.length_drop]
        by_cases h : 16 * (n + 2) ≤ buf.length
        · rw [if_pos h, if_pos (by omega)]
        · rw [if_neg h, if_neg (by omega)]
      · rw [accum32_group32_chk_of_lt buf adacc s2acc (by omega), if_neg (by omega)]

/-- Checked `NEON_accum32` over `g` groups succeeds exactly when the buffer has `16 * g`
bytes, with the result of the model. -/
theorem NEON_accum32_chk_eq (s : Nat × Nat) (buf : List Byte) (g : Nat) :
    NEON_accum32_chk s buf g =
      if 16 * g ≤ buf.length then some (NEON_accum32 s buf g) else none := by
  by_cases h : 16 * g ≤ buf.length
  · simp only [NEON_accum32_chk, accum32_loop32_chk_eq, if_pos h]
    rfl
  · simp only [NEON_accum32_chk, accum32_loop32_chk_eq, if_neg h]

/-- Checked `NEON_accum32` succeeds exactly when every offset it loads is inside the buffer. -/
theorem NEON_accum32_chk_iff_reads (s : Nat × Nat) (buf : List Byte) (g : Nat) :
    (NEON_accum32_chk s buf g).isSome = true ↔
      ∀ o, o ∈ NEON_accum32_reads g → o < buf.length := by
  rw [NEON_accum32_chk_eq, NEON_accum32_reads_eq]
  constructor
  · intro h o ho
    rw [List.mem_range'_1] at ho
    split at h
    · omega
    · simp at h
  · intro h
    by_cases hg : 16 * g ≤ buf.length
    · rw [if_pos hg]; rfl
    · have := h (16 * g - 1) (by rw [List.mem_range'_1]; omega)
      omega

/-- When the buffer has `len` bytes no read of the loop of `NEON_handle_tail` is outside it. -/
theorem handle_tail_loop_chk_eq (buf : List Byte) (len : Nat) (hlen : len ≤ buf.length) :
    ∀ (fuel i : Nat) (pair : Nat × Nat),
      handle_tail_loop_chk buf len fuel i pair =
        Outcome.of_option (handle_tail_loop buf len fuel i pair) := by
  intro fuel
  induction fuel with
  | zero => intro i pair; rfl
  | succ fuel ih =>
    intro i pair
    rw [handle_tail_loop_chk, handle_tail_loop]
    by_cases hi : i < len
    · rw [if_pos hi, if_pos hi, ld_chk_eq buf i (by omega)]
      exact ih _ _
    · rw [if_neg hi, if_neg hi]
      rfl

/-- When the buffer has fewer than `len` bytes the loop of `NEON_handle_tail` reads outside
it. -/
theorem handle_tail_loop_chk_fault (buf : List Byte) (len : Nat) (hlen : buf.length < len)
    (h32 : len < W32) : ∀ (fuel i : Nat) (pair : Nat × Nat), i ≤ buf.length →
      buf.length - i < fuel →
      handle_tail_loop_chk buf len fuel i pair = Outcome.out_of_bounds := by
  have h32n : len < 4294967296 := h32
  intro fuel
  induction fuel with
  | zero => intro i pair _ h; omega
  | succ fuel ih =>
    intro i pair hi hf
    rw [handle_tail_loop_chk, if_pos (by omega)]
    by_cases hlt : i < buf.length
    · rw [ld_chk_eq buf i hlt]
      have hw : (i + 1) % W32 = i + 1 := Nat.mod_eq_of_lt (by simp only [W32]; omega)
      simp only [hw]
      exact ih _ _ (by omega) (by omega)
    · have : ld_chk buf i = none := by
        have h := ld_chk_isSome buf i
        cases hc : ld_chk buf i with
        | none => rfl
        | some b => rw [hc] at h; simp at h; omega
      rw [this]

/-- A pass whose call of `NEON_accum32` stays inside the buffer runs as in the model. -/
theorem adler32_body_chk_eq (buf : List Byte) (len : Nat) (st : LoopState)
    (h : st.i < len → 16 ≤ chunk_size len st →
      st.i + 16 * (chunk_size len st / 16) ≤ buf.length) :
    adler32_body_chk buf len st = some (adler32_body buf len st) := by
  unfold adler32_body_chk adler32_body
  by_cases hi : st.i < len
  · by_cases hn : chunk_size len st < 16
    · simp only [if_pos hi, if_pos hn]
    · have hb := h hi (by omega)
      have hd : 16 * (chunk_size len st / 16) ≤ (buf.drop st.i).length := by
        rw [List.length_drop]; omega
      simp only [if_pos hi, if_neg hn, NEON_accum32_chk_eq, if_pos hd]
  · simp only [if_neg hi]

/-- Every pass the chunk loop enters runs without a load outside the buffer. -/
theorem loop_state_body_chk (s : Nat) (b : List Byte) (h32 : b.length < W32) (k : Nat)
    (st : LoopState) (hst : loop_state b b.length (loop_init s) k = some st) :
    adler32_body_chk b b.length st = some (adler32_body b b.length st) := by
  apply adler32_body_chk_eq
  intro hi hcs16
  rcases loop_state_cases b b.length (Nat.le_refl _) h32 s k st hst with ⟨rfl, hle⟩ | hend
  · have hcs := chunk_size_start (decode s) b b.length k h32
    have hi2 : (chunk_start (decode s) b k).i = 5552 * k := rfl
    rw [hi2] at hi ⊢
    rw [hcs]
    omega
  · omega

/-- The chunk loop runs without a load outside the buffer, for every fuel. -/
theorem adler32_loop_chk_eq (s : Nat) (b : List Byte) (h32 : b.length < W32) :
    ∀ (fuel k : Nat) (st : LoopState), loop_state b b.length (loop_init s) k = some st →
      adler32_loop_chk b b.length fuel st =
        Outcome.of_option (adler32_loop b b.length fuel st) := by
  intro fuel
  induction fuel with
  | zero => intro k st _; rfl
  | succ fuel ih =>
    intro k st hst
    rw [adler32_loop_chk, adler32_loop, loop_state_body_chk s b h32 k st hst]
    cases hb : adler32_body b b.length st with
    | next st1 =>
      have hnext : loop_state b b.length (loop_init s) (k + 1) = some st1 := by
        rw [loop_state, hst]
        simp only [hb]
      exact ih (k + 1) st1 hnext
    | stop st1 => rfl

/-- `NEON_adler32` on a buffer of `len < 2^32` bytes runs without a load outside the buffer,
for every fuel. -/
theorem NEON_adler32_chk_eq (s : Nat) (b : List Byte) (h32 : b.length < W32) (fuel : Nat) :
    NEON_adler32_chk fuel s (some b) b.length =
      Outcome.of_option (NEON_adler32 fuel s (some b) b.length) := by
  have hl := adler32_loop_chk_eq s b h32 fuel 0 (loop_init s) rfl
  simp only [NEON_adler32_chk, NEON_adler32, hl]
  cases adler32_loop b b.length fuel (loop_init s) with
  | none => rfl
  | some st =>
    simp only [Outcome.of_option]
    by_cases hd : st.done < b.length
    · have ht := handle_tail_loop_chk_eq (b.drop st.done) (b.length - st.done)
        (by rw [List.length_drop]) fuel 0 st.pair
      simp only [if_pos hd, NEON_handle_tail_chk, NEON_handle_tail, ht]
      cases handle_tail_loop (b.drop st.done) (b.length - st.done) fuel 0 st.pair with
      | none => rfl
      | some p => rfl
    · simp only [if_neg hd]

/-- C14: for `L < 2^32`, every call of `NEON_accum32` has a group count between 1 and 347
with `i + 16 * g <= L`, and with its loads bounds-checked against the buffer the call, the
pass, the chunk loop, the call of `NEON_handle_tail` and the whole of `NEON_adler32` run as
in the model: no load or read reaches outside the buffer. The checks are effective: checked
`NEON_accum32` succeeds exactly when the offsets it loads are inside the buffer, and both
functions stop at an out-of-bounds access on a buffer shorter than the length they are
given. -/
theorem calls_in_bounds (s : Nat) (b : List Byte) (hL : b.length < 2 ^ 32) :
    (∀ k st, loop_state b b.length (loop_init s) k = some st → st.i < b.length →
      16 ≤ chunk_size b.length st →
      1 ≤ chunk_size b.length st / 16 ∧ chunk_size b.length st / 16 ≤ 347 ∧
      st.i + 16 * (chunk_size b.length st / 16) ≤ b.length ∧
      (∀ o, o ∈ NEON_accum32_reads (chunk_size b.length st / 16) → st.i + o < b.length) ∧
      NEON_accum32_chk st.pair (b.drop st.i) (chunk_size b.length st / 16) =
        some (NEON_accum32 st.pair (b.drop st.i) (chunk_size b.length st / 16)) ∧
      adler32_body_chk b b.length st = some (adler32_body b b.length st)) ∧
    (∀ fuel, b.length / 5552 + 2 ≤ fuel →
      ∃ st, adler32_loop b b.length fuel (loop_init s) = some st ∧
        adler32_loop_chk b b.length fuel (loop_init s) = Outcome.value st ∧
        st.done ≤ b.length ∧
        (∀ fuel2 j, j ∈ handle_tail_reads (b.length - st.done) fuel2 0 →
          st.done + j < b.length) ∧
        (∀ fuel2, NEON_handle_tail_chk fuel2 st.pair (b.drop st.done) (b.length - st.done) =
          Outcome.of_option
            (NEON_handle_tail fuel2 st.pair (b.drop st.done) (b.length - st.done)))) ∧
    (∀ fuel, NEON_adler32_chk fuel s (some b) b.length =
      Outcome.of_option (NEON_adler32 fuel s (some b) b.length)) ∧
    (∀ fuel, b.length / 5552 + 16 ≤ fuel →
      ∃ r, NEON_adler32_chk fuel s (some b) b.length = Outcome.value r ∧
        NEON_adler32 fuel s (some b) b.length = some r) ∧
    (∀ (p : Nat × Nat) (buf : List Byte) (g : Nat),
      ((NEON_accum32_chk p buf g).isSome = true ↔
        ∀ o, o ∈ NEON_accum32_reads g → o < buf.length) ∧
      (buf.length < 16 * g → NEON_accum32_chk p buf g = none)) ∧
    (∀ (p : Nat × Nat) (buf : List Byte) (len fuel : Nat),
      buf.length < len → len < 2 ^ 32 → buf.length < fuel →
      NEON_handle_tail_chk fuel p buf len = Outcome.out_of_bounds) := by
  have h32 : b.length < W32 := hL
  refine ⟨?_, ?_, ?_, ?_, ?_, ?_⟩
  · intro k st hst hi hcs16
    have hbody := loop_state_body_chk s b h32 k st hst
    rcases loop_state_cases b b.length (Nat.le_refl _) h32 s k st hst with ⟨rfl, hle⟩ | hend
    · have hcs := chunk_size_start (decode s) b b.length k h32
      have hi2 : (chunk_start (decode s) b k).i = 5552 * k := rfl
      rw [hi2] at hi ⊢
      rw [hcs] at hcs16 ⊢
      refine ⟨by omega, by omega, by omega, ?_, ?_, hbody⟩
      · intro o ho
        rw [NEON_accum32_reads_eq, List.mem_range'_1] at ho
        omega
      · rw [NEON_accum32_chk_eq, if_pos]
        rw [List.length_drop]
        omega
    · omega
  · intro fuel hf
    obtain ⟨st, hst, hdone, _, _, _⟩ := adler32_loop_final s b fuel h32 hf
    have hchk := adler32_loop_chk_eq s b h32 fuel 0 (loop_init s) rfl
    rw [hst] at hchk
    refine ⟨st, hst, hchk, by omega, ?_, ?_⟩
    · intro fuel2 j hj
      have := handle_tail_reads_lt _ _ _ _ hj
      omega
    · intro fuel2
      exact handle_tail_loop_chk_eq (b.drop st.done) (b.length - st.done)
        (by rw [List.length_drop]) fuel2 0 st.pair
  · exact NEON_adler32_chk_eq s b h32
  · intro fuel hf
    have h := NEON_adler32_eq fuel s b b.length (Nat.le_refl _) hL hf
    refine ⟨_, ?_, h⟩
    rw [NEON_adler32_chk_eq s b h32, h]
    rfl
  · intro p buf g
    refine ⟨NEON_accum32_chk_iff_reads p buf g, ?_⟩
    intro h
    rw [NEON_accum32_chk_eq, if_neg (by omega)]
  · intro p buf len fuel h1 h2 h3
    exact handle_tail_loop_chk_fault buf len h1 h2 fuel 0 p (Nat.zero_le _) (by omega)

/-- C14 at a buffer of 40 bytes, and the out-of-bounds stops at its last 8 bytes. -/
theorem calls_in_bounds_witness :
    sample40.length < 2 ^ 32 ∧
    (∀ fuel, NEON_adler32_chk fuel 1 (some sample40) sample40.length =
      Outcome.of_option (NEON_adler32 fuel 1 (some sample40) sample40.length)) ∧
    (sample40.length / 5552 + 16 ≤ 16 ∧
      ∃ r, NEON_adler32_chk 16 1 (some sample40) sample40.length = Outcome.value r ∧
        NEON_adler32 16 1 (some sample40) sample40.length = some r) ∧
    ((sample40.drop 32).length < 16 * 1 ∧
      NEON_accum32_chk (1, 0) (sample40.drop 32) 1 = none) ∧
    ((sample40.drop 32).length < 9 ∧ 9 < 2 ^ 32 ∧ (sample40.drop 32).length < 16 ∧
      NEON_handle_tail_chk 16 (1, 0) (sample40.drop 32) 9 = Outcome.out_of_bounds) :=
  ⟨by decide, (calls_in_bounds 1 sample40 (by decide)).2.2.1,
    ⟨by decide, (calls_in_bounds 1 sample40 (by decide)).2.2.2.1 16 (by decide)⟩,
    ⟨by decide,
      ((calls_in_bounds 1 sample40 (by decide)).2.2.2.2.1 (1, 0) (sample40.drop 32) 1).2
        (by decide)⟩,
    ⟨by decide, by decide, by decide,
      (calls_in_bounds 1 sample40 (by decide)).2.2.2.2.2 (1, 0) (sample40.drop 32) 9 16
        (by decide) (by decide) (by decide)⟩⟩

/-- The returned value, as `(B << 16) | A` over the natural numbers. -/
theorem encode_of_lt (A B : Nat) (hB : B < 65536) : encode (A, B) = (B <<< 16) ||| A := by
  have hsh : (B <<< 16) % W32 = B <<< 16 := by
    rw [Nat.shiftLeft_eq]
    simp only [W32]
    omega
  rw [encode, hsh]

/-- C16: for `1 <= L < 16` no pass of the chunk loop reaches the call of `NEON_accum32`,
and the result is `((B1 % 65521) << 16) | (A1 % 65521)` for the pair `(A1, B1)` that
`NEON_handle_tail` returns from the decoded seed over all `L` bytes. -/
theorem short_buffer_tail_only (s : Nat) (b : List Byte) (fuel : Nat) (h1 : 1 ≤ b.length)
    (h16 : b.length < 16) (hf : 16 ≤ fuel) :
    (∀ k st, loop_state b b.length (loop_init s) k = some st →
      ¬ (st.i < b.length ∧ 16 ≤ chunk_size b.length st)) ∧
    (∃ p, NEON_handle_tail fuel (decode s) b b.length = some p ∧
      NEON_adler32 fuel s (some b) b.length =
        some (((p.2 % 65521) <<< 16) ||| (p.1 % 65521))) := by
  have h32n : b.length < 4294967296 := by omega
  have h32 : b.length < W32 := h32n
  obtain ⟨hd1, hd2⟩ := wrap32_decode s
  constructor
  · intro k st hst
    rcases loop_state_cases b b.length (Nat.le_refl _) h32 s k st hst with ⟨rfl, hle⟩ | hend
    · have hcs := chunk_size_start (decode s) b b.length k h32
      rw [hcs]
      omega
    · omega
  · obtain ⟨st, hst, hdone, hpair, _, _⟩ := adler32_loop_final s b fuel h32 (by omega)
    have hd0 : st.done = 0 := by omega
    rw [hd0] at hpair
    have hp : st.pair = decode s := by rw [hpair]; rfl
    have ht := handle_tail_exact fuel (decode s) hd1 hd2 b b.length (Nat.le_refl _) (by omega)
      (by omega)
    refine ⟨_, ht, ?_⟩
    simp only [NEON_adler32, hst, hd0, hp, List.drop_zero, Nat.sub_zero,
      if_pos (show 0 < b.length by omega), ht, M_BASE]
    rw [encode_of_lt _ _ (by omega)]

/-- C16 at the 9 bytes of `wikipedia`. -/
theorem short_buffer_tail_only_witness :
    1 ≤ wikipedia.length ∧ wikipedia.length < 16 ∧
    (∀ k st, loop_state wikipedia wikipedia.length (loop_init 1) k = some st →
      ¬ (st.i < wikipedia.length ∧ 16 ≤ chunk_size wikipedia.length st)) ∧
    (∃ p, NEON_handle_tail 16 (decode 1) wikipedia wikipedia.length = some p ∧
      NEON_adler32 16 1 (some wikipedia) wikipedia.length =
        some (((p.2 % 65521) <<< 16) ||| (p.1 % 65521))) :=
  ⟨by decide, by decide,
    short_buffer_tail_only 1 wikipedia 16 (by decide) (by decide) (by decide)⟩

/-- The exact sums over `n` bytes 255. -/
theorem seq_sums_replicate (n : Nat) : ∀ (A B : Nat),
    seq_sums (A, B) (List.replicate n (255 : Byte)) = (A + 255 * n, B + n * A + 255 * tri n) := by
  induction n with
  | zero => intro A B; simp [seq_sums, tri]
  | succ n ih =>
    intro A B
    rw [List.replicate_succ, seq_sums_cons, tail_step, ih]
    simp only [tri, Prod.mk.injEq, Nat.add_mul, Nat.mul_add, Nat.one_mul, Nat.mul_one]
    constructor
    · show A + (255 : Byte).val + 255 * n = A + (255 * n + 255)
      have : (255 : Byte).val = 255 := rfl
      omega
    · have : (255 : Byte).val = 255 := rfl
      show B + (A + (255 : Byte).val) + (n * A + n * (255 : Byte).val) + 255 * tri n = _
      rw [this]
      omega

/-- C17: from `A, B <= 65520` the exact sums over `M_NMAX = 5552` bytes are at most
`255 * n * (n + 1) / 2 + (n + 1) * 65520 <= 2^32 - 1`, and over 5553 bytes 255 from
`A = B = 65520` the exact `B` exceeds `2^32 - 1`. -/
theorem M_NMAX_largest_safe :
    (∀ (bs : List Byte) (A B : Nat), bs.length = M_NMAX → A ≤ 65520 → B ≤ 65520 →
      (seq_sums (A, B) bs).1 ≤ 2 ^ 32 - 1 ∧
      (seq_sums (A, B) bs).2 ≤ 255 * M_NMAX * (M_NMAX + 1) / 2 + (M_NMAX + 1) * 65520 ∧
      255 * M_NMAX * (M_NMAX + 1) / 2 + (M_NMAX + 1) * 65520 ≤ 2 ^ 32 - 1) ∧
    (List.replicate (M_NMAX + 1) (255 : Byte)).length = M_NMAX + 1 ∧
    2 ^ 32 - 1 < (seq_sums (65520, 65520) (List.replicate (M_NMAX + 1) (255 : Byte))).2 := by
  refine ⟨?_, List.length_replicate _ _, ?_⟩
  · intro bs A B hn hA hB
    obtain ⟨ha, hb⟩ := seq_sums_le (A, B) bs
    have ht := tri_two bs.length
    simp only [M_NMAX] at hn ⊢
    rw [hn] at ha hb ht
    have hm : 5552 * A ≤ 5552 * 65520 := Nat.mul_le_mul_left _ hA
    simp only at ha hb hm
    norm_num at ht ⊢
    omega
  · rw [seq_sums_replicate]
    have ht := tri_two (M_NMAX + 1)
    simp only [M_NMAX] at ht ⊢
    norm_num at ht ⊢
    omega

/-- C17 at 5552 bytes 255 from `A = B = 65520`. -/
theorem M_NMAX_largest_safe_witness :
    (List.replicate 5552 (255 : Byte)).length = M_NMAX ∧
    (seq_sums (65520, 65520) (List.replicate 5552 (255 : Byte))).1 ≤ 2 ^ 32 - 1 ∧
    (seq_sums (65520, 65520) (List.replicate 5552 (255 : Byte))).2 ≤
      255 * M_NMAX * (M_NMAX + 1) / 2 + (M_NMAX + 1) * 65520 ∧
    255 * M_NMAX * (M_NMAX + 1) / 2 + (M_NMAX + 1) * 65520 ≤ 2 ^ 32 - 1 :=
  ⟨List.length_replicate _ _,
    M_NMAX_largest_safe.1 (List.replicate 5552 (255 : Byte)) 65520 65520
      (List.length_replicate _ _) (by decide) (by decide)⟩

/-- The halves of the seed are read from its low 32 bits. -/
theorem decode_mod (s : Nat) : decode (s % 2 ^ 32) = decode s := by
  rw [decode_eq, decode_eq]
  simp only [Prod.mk.injEq]
  omega

/-- The returned value fits in 32 bits. -/
theorem encode_lt (p : Nat × Nat) (h : p.1 < 2 ^ 32) : encode p < 2 ^ 32 := by
  rw [encode]
  exact Nat.or_lt_two_pow (Nat.mod_lt _ (by norm_num [W32])) h

/-- A pass of the chunk loop keeps `pair[0]` a 16-bit value. -/
theorem body_pair_le (buf : List Byte) (len : Nat) (st : LoopState)
    (hp : st.pair.1 ≤ 65535) :
    match adler32_body buf len st with
    | Flow.next st1 => st1.pair.1 ≤ 65535
    | Flow.stop st1 => st1.pair.1 ≤ 65535 := by
  simp only [adler32_body]
  split_ifs
  · exact hp
  · show _ % M_BASE ≤ 65535
    simp only [M_BASE]
    omega
  · exact hp

/-- The chunk loop keeps `pair[0]` a 16-bit value. -/
theorem adler32_loop_pair_le (buf : List Byte) (len : Nat) : ∀ (fuel : Nat) (st st1 : LoopState),
    st.pair.1 ≤ 65535 → adler32_loop buf len fuel st = some st1 → st1.pair.1 ≤ 65535 := by
  intro fuel
  induction fuel with
  | zero => intro st st1 _ h; simp [adler32_loop] at h
  | succ fuel ih =>
    intro st st1 hp h
    have hb := body_pair_le buf len st hp
    rw [adler32_loop] at h
    cases hbody : adler32_body buf len st with
    | next st2 =>
      rw [hbody] at h hb
      exact ih st2 st1 hb h
    | stop st2 =>
      rw [hbody] at h hb
      simp only [Option.some.injEq] at h
      subst h
      exact hb

/-- C19: `NEON_adler32` gives the same result for a seed and for its low 32 bits, every
value it returns is below `2^32`, and for `L < 2^32` it returns such a value. -/
theorem seed_low_32_bits (s : Nat) :
    (∀ fuel buf len, NEON_adler32 fuel s buf len = NEON_adler32 fuel (s % 2 ^ 32) buf len) ∧
    (∀ fuel buf len r, NEON_adler32 fuel s buf len = some r → r < 2 ^ 32) ∧
    (∀ fuel (b : List Byte), b.length < 2 ^ 32 → b.length / 5552 + 16 ≤ fuel →
      ∃ r, NEON_adler32 fuel s (some b) b.length = some r ∧
        NEON_adler32 fuel (s % 2 ^ 32) (some b) b.length = some r ∧ r < 2 ^ 32) := by
  have hsame : ∀ fuel buf len,
      NEON_adler32 fuel s buf len = NEON_adler32 fuel (s % 2 ^ 32) buf len := by
    intro fuel buf len
    simp only [NEON_adler32, loop_init, decode_mod]
  have hlt : ∀ fuel buf len r, NEON_adler32 fuel s buf len = some r → r < 2 ^ 32 := by
    intro fuel buf len r h
    cases buf with
    | none =>
      simp only [NEON_adler32, Option.some.injEq] at h
      omega
    | some buf =>
      simp only [NEON_adler32] at h
      cases hl : adler32_loop buf len fuel (loop_init s) with
      | none => rw [hl] at h; simp at h
      | some st =>
        rw [hl] at h
        have hp := adler32_loop_pair_le buf len fuel _ st (wrap32_decode s).1 hl
        dsimp only at h
        split at h
        · cases ht : NEON_handle_tail fuel st.pair (List.drop st.done buf) (len - st.done) with
          | none => rw [ht] at h; simp at h
          | some pair =>
            rw [ht] at h
            simp only [Option.some.injEq] at h
            subst h
            apply encode_lt
            simp only [M_BASE]
            omega
        · simp only [Option.some.injEq] at h
          subst h
          apply encode_lt
          omega
  refine ⟨hsame, hlt, ?_⟩
  intro fuel b hL hf
  have h := NEON_adler32_eq fuel s b b.length (Nat.le_refl _) hL hf
  exact ⟨_, h, (hsame fuel (some b) b.length) ▸ h, hlt _ _ _ _ h⟩

/-- C19 at a seed of 33 bits and a buffer of 40 bytes. -/
theorem seed_low_32_bits_witness :
    sample40.length < 2 ^ 32 ∧ sample40.length / 5552 + 16 ≤ 16 ∧
    ∃ r, NEON_adler32 16 0x1FFF1FFF2 (some sample40) sample40.length = some r ∧
      NEON_adler32 16 (0x1FFF1FFF2 % 2 ^ 32) (some sample40) sample40.length = some r ∧
      r < 2 ^ 32 :=
  ⟨by decide, by decide, (seed_low_32_bits 0x1FFF1FFF2).2.2 16 sample40 (by decide) (by decide)⟩

/-- The two registers a group of 32 bytes loads hold byte values. -/
theorem ld_bounds (buf : List Byte) :
    IsBytes (vld1q_u8 buf) ∧ IsBytes (vld1q_u8 (buf.drop 16)) :=
  ⟨vld1q_u8_isBytes buf, vld1q_u8_isBytes (buf.drop 16)⟩

/-- Lane `j` of `sum2` in a group of 32 bytes is the exact weighted sum of its four bytes. -/
theorem sum2_32_lane_eq (buf : List Byte) (j : Nat) (hj : j < 8) :
    lane16 (group32_sum2 buf) j =
      (32 - j) * ld buf j + (24 - j) * ld buf (8 + j) + (16 - j) * ld buf (16 + j) +
        (8 - j) * ld buf (24 + j) := by
  obtain ⟨h0, h1⟩ := ld_bounds buf
  simp only [IsBytes, vld1q_u8, ld_drop, Nat.reduceAdd] at h0 h1
  interval_cases j <;>
    simp only [lane16, group32_sum2, taps_lo, taps_hi] <;>
    simp only [vmlal_u8, vmull_u8, vget_low_u8,
      vget_high_u8, vld1q_u8, ld_drop, W16, Nat.reduceAdd, Nat.reduceMul, Nat.reduceSub] <;>
    omega

/-- Lane `j` of `sum2` in a group of 16 bytes is the exact weighted sum of its two bytes. -/
theorem sum2_16_lane_eq (buf : List Byte) (j : Nat) (hj : j < 8) :
    lane16 (group16_sum2 buf) j = (16 - j) * ld buf j + (8 - j) * ld buf (8 + j) := by
  obtain ⟨h0, -⟩ := ld_bounds buf
  simp only [IsBytes, vld1q_u8] at h0
  interval_cases j <;>
    simp only [lane16, group16_sum2, taps_hi] <;>
    simp only [vmlal_u8, vmull_u8, vget_low_u8,
      vget_high_u8, vld1q_u8, W16, Nat.reduceAdd, Nat.reduceMul, Nat.reduceSub] <;>
    omega

/-- C20: in a group of `NEON_accum32` every lane of `adler` and of `sum2` holds the exact
sum of its bytes (no wrap modulo `2^16`): at most `4 * 255` and `255 * (80 - 4 * j)` in a
group of 32 bytes, `2 * 255` and `255 * (24 - 2 * j)` in a group of 16 bytes; so the lane
sums of the 32-bit accumulators grow by the exact sums. -/
theorem lanes16_no_wrap (buf : List Byte) :
    (∀ adacc s2acc, accum32_group32 buf adacc s2acc =
      (vpadalq_u16 adacc (group32_adler buf),
       vpadalq_u16 (vaddq_u32 s2acc (vshlq_n_u32 adacc 5)) (group32_sum2 buf))) ∧
    (∀ adacc s2acc, accum32_group16 buf adacc s2acc =
      (vpadalq_u16 adacc (group16_adler buf),
       vpadalq_u16 (vaddq_u32 s2acc (vshlq_n_u32 adacc 4)) (group16_sum2 buf))) ∧
    (∀ j, j < 8 →
      lane16 (group32_adler buf) j =
        ld buf (2 * j) + ld buf (2 * j + 1) + ld buf (16 + 2 * j) + ld buf (16 + 2 * j + 1) ∧
      lane16 (group32_adler buf) j ≤ 4 * 255) ∧
    (∀ j, j < 8 →
      lane16 (group16_adler buf) j = ld buf (2 * j) + ld buf (2 * j + 1) ∧
      lane16 (group16_adler buf) j ≤ 2 * 255) ∧
    (∀ j, j < 8 →
      lane16 (group32_sum2 buf) j =
        (32 - j) * ld buf j + (24 - j) * ld buf (8 + j) + (16 - j) * ld buf (16 + j) +
          (8 - j) * ld buf (24 + j) ∧
      lane16 (group32_sum2 buf) j ≤ 255 * (80 - 4 * j) ∧ 255 * (80 - 4 * j) ≤ 20400) ∧
    (∀ j, j < 8 →
      lane16 (group16_sum2 buf) j = (16 - j) * ld buf j + (8 - j) * ld buf (8 + j) ∧
      lane16 (group16_sum2 buf) j ≤ 255 * (24 - 2 * j) ∧ 255 * (24 - 2 * j) ≤ 6120) ∧
    (∀ adacc s2acc,
      hsum (accum32_group32 buf adacc s2acc).1 =
        (hsum adacc + (bsum16 (vld1q_u8 buf) + bsum16 (vld1q_u8 (buf.drop 16)))) % W32 ∧
      hsum (accum32_group32 buf adacc s2acc).2 =
        (hsum s2acc + 32 * hsum adacc + (16 * bsum16 (vld1q_u8 buf) + wsum16 (vld1q_u8 buf) +
          wsum16 (vld1q_u8 (buf.drop 16)))) % W32) ∧
    (∀ adacc s2acc,
      hsum (accum32_group16 buf adacc s2acc).1 =
        (hsum adacc + bsum16 (vld1q_u8 buf)) % W32 ∧
      hsum (accum32_group16 buf adacc s2acc).2 =
        (hsum s2acc + 16 * hsum adacc + wsum16 (vld1q_u8 buf)) % W32) := by
  obtain ⟨h0, h1⟩ := ld_bounds buf
  have hb0 := h0
  have hb1 := h1
  simp only [IsBytes, vld1q_u8, ld_drop, Nat.reduceAdd] at h0 h1
  refine ⟨fun _ _ => rfl, fun _ _ => rfl, ?_, ?_, ?_, ?_, ?_, ?_⟩
  · intro j hj
    interval_cases j <;>
      simp only [lane16, group32_adler, vpadalq_u8, vpaddlq_u8, vld1q_u8, ld_drop, W16,
        Nat.reduceAdd, Nat.reduceMul] <;> omega
  · intro j hj
    interval_cases j <;>
      simp only [lane16, group16_adler, vpaddlq_u8, vld1q_u8, W16,
        Nat.reduceAdd, Nat.reduceMul] <;> omega
  · intro j hj
    rw [sum2_32_lane_eq buf j hj]
    refine ⟨rfl, ?_, by omega⟩
    interval_cases j <;> simp only [Nat.reduceAdd, Nat.reduceMul, Nat.reduceSub] <;> omega
  · intro j hj
    rw [sum2_16_lane_eq buf j hj]
    refine ⟨rfl, ?_, by omega⟩
    interval_cases j <;> simp only [Nat.reduceAdd, Nat.reduceMul, Nat.reduceSub] <;> omega
  · intro adacc s2acc
    have e1 := hsum_vpadalq_u16 adacc (group32_adler buf)
    have e2 := hsum_vpadalq_u16 (vaddq_u32 s2acc (vshlq_n_u32 adacc 5)) (group32_sum2 buf)
    rw [group32_adler, adler32_lanes _ _ hb0 hb1] at e1
    rw [group32_sum2, sum2_32_lanes _ _ hb0 hb1, hsum_shl5] at e2
    refine ⟨e1, ?_⟩
    show hsum (vpadalq_u16 (vaddq_u32 s2acc (vshlq_n_u32 adacc 5)) (group32_sum2 buf)) = _
    rw [group32_sum2, e2]
    simp only [W32]
    omega
  · intro adacc s2acc
    have e1 := hsum_vpadalq_u16 adacc (group16_adler buf)
    have e2 := hsum_vpadalq_u16 (vaddq_u32 s2acc (vshlq_n_u32 adacc 4)) (group16_sum2 buf)
    rw [group16_adler, adler16_lanes _ hb0] at e1
    rw [group16_sum2, sum2_16_lanes _ hb0, hsum_shl4] at e2
    refine ⟨e1, ?_⟩
    show hsum (vpadalq_u16 (vaddq_u32 s2acc (vshlq_n_u32 adacc 4)) (group16_sum2 buf)) = _
    rw [group16_sum2, e2]
    simp only [W32]
    omega

/-- C20 at lane 3 of the first group of 32 bytes of `sample40`. -/
theorem lanes16_no_wrap_witness :
    (3 : Nat) < 8 ∧
    (lane16 (group32_adler sample40) 3 =
        ld sample40 (2 * 3) + ld sample40 (2 * 3 + 1) + ld sample40 (16 + 2 * 3) +
          ld sample40 (16 + 2 * 3 + 1) ∧
      lane16 (group32_adler sample40) 3 ≤ 4 * 255) ∧
    (lane16 (group32_sum2 sample40) 3 =
        (32 - 3) * ld sample40 3 + (24 - 3) * ld sample40 (8 + 3) +
          (16 - 3) * ld sample40 (16 + 3) + (8 - 3) * ld sample40 (24 + 3) ∧
      lane16 (group32_sum2 sample40) 3 ≤ 255 * (80 - 4 * 3) ∧ 255 * (80 - 4 * 3) ≤ 20400) :=
  ⟨by decide, (lanes16_no_wrap sample40).2.2.1 3 (by decide),
    (lanes16_no_wrap sample40).2.2.2.2.1 3 (by decide)⟩

end NeonAdler32
